import Mathlib

/-!
# Verification of the gemini-grounding-mcp citation / scraping / auth core

Shallow embedding of the repository's core logic:

* `Formatter.insertCitations`, `Formatter.extractSearchResults`,
  `Formatter.formatBatchResults` (src/utils/formatter.ts),
* `parseTextWithCitations` (src/utils/citation-parser.ts),
* `GeminiClient._extractCitations`, `GeminiClient.batchSearch`
  (src/gemini/client.ts),
* `Scraper.scrapeUrl` (src/utils/scraper.ts),
* `OAuth2Client.getValidToken` (src/auth/oauth2.ts).

Text is modelled as `List Char` where character-level splicing matters
(citation insertion and parsing) and as `String` elsewhere.  JavaScript
numbers that are used as array offsets are modelled as `Nat`; the
user-supplied retry count (which may be negative) as `Int`.  Network and
file-system effects are modelled by explicit oracle parameters and by
returning the state (cache contents, persisted token, attempt counts,
sleep durations) alongside the result.
-/

namespace GGMcp

/-! ## Data model

The grounding-metadata types (`src/types/gemini.ts`) are not part of the
provided sources; the field shapes below are taken from their usage sites
in `src/utils/formatter.ts` and `src/gemini/client.ts` together with the
spec's `GroundingMetadata` description (optional `endIndex` on a support,
a nested `segment` with `endIndex`/`text`, `groundingChunkIndices`, and
chunks carrying an optional `web : {uri, title?}`). -/

structure SegmentInfo where
  startIndex : Option Nat
  endIndex : Option Nat
  text : Option String
  deriving Repr, DecidableEq

structure GroundingSupport where
  endIndex : Option Nat
  segment : Option SegmentInfo
  groundingChunkIndices : Option (List Nat)
  deriving Repr, DecidableEq

structure WebInfo where
  uri : String
  title : Option String
  deriving Repr, DecidableEq

structure GroundingChunk where
  web : Option WebInfo
  deriving Repr, DecidableEq

structure GroundingMetadata where
  groundingChunks : Option (List GroundingChunk)
  groundingSupports : Option (List GroundingSupport)
  deriving Repr, DecidableEq

/-- `SearchResultDetail` from src/types/index.ts. -/
structure SearchResultDetail where
  title : String
  url : String
  snippet : String
  deriving Repr, DecidableEq

/-- `Citation` from src/types/index.ts. -/
structure Citation where
  number : Nat
  title : String
  url : String
  deriving Repr, DecidableEq

/-! ## Decimal rendering of citation numbers

JavaScript renders `idx + 1` in the template literal `` `[${idx + 1}]` ``
in decimal.  `natDigits` is that decimal rendering as a character list. -/

/-- The decimal digit character for `n < 10` (`'0'` … `'9'`). -/
def digitChar (n : Nat) : Char := Char.ofNat (48 + n)

/-- Decimal rendering of a natural number, most significant digit first. -/
def natDigits (n : Nat) : List Char :=
  if _h : n < 10 then [digitChar n]
  else natDigits (n / 10) ++ [digitChar (n % 10)]
  decreasing_by exact Nat.div_lt_self (by omega) (by omega)

theorem natDigits_ne_nil (n : Nat) : natDigits n ≠ [] := by
  rw [natDigits]
  split <;> simp

theorem digitChar_isDigit (n : Nat) (h : n < 10) : (digitChar n).isDigit := by
  interval_cases n <;> decide

theorem natDigits_all_digit (n : Nat) : ∀ c ∈ natDigits n, c.isDigit := by
  induction n using Nat.strong_induction_on with
  | _ n ih =>
    rw [natDigits]
    split
    · next h => simpa using digitChar_isDigit n h
    · next h =>
      intro c hc
      simp only [List.mem_append, List.mem_singleton] at hc
      rcases hc with hc | hc
      · exact ih (n / 10) (Nat.div_lt_self (by omega) (by omega)) c hc
      · subst hc
        exact digitChar_isDigit _ (Nat.mod_lt _ (by omega))

/-! ## Citation-marker stripping

`stripMarkers` is the one-pass removal of every substring matching the
regex `\[\d+\]` (a `String.replace`-style left-to-right scan), the
operation the spec uses to state the round-trip property for
`insertCitations`. -/

/-- If `s` begins with a complete `<digits>]` (the tail of a citation marker
whose `[` has already been consumed), return the remainder after the `]`. -/
def takeMarkerTail (s : List Char) : Option (List Char) :=
  if (s.takeWhile Char.isDigit).isEmpty then none
  else
    match s.dropWhile Char.isDigit with
    | ']' :: r => some r
    | _ => none

theorem takeMarkerTail_length {s r : List Char} (h : takeMarkerTail s = some r) :
    r.length < s.length := by
  unfold takeMarkerTail at h
  split at h
  · exact absurd h (by simp)
  · split at h
    · next heq =>
      cases h
      have hlen : (s.dropWhile Char.isDigit).length ≤ s.length :=
        (List.dropWhile_suffix Char.isDigit).sublist.length_le
      rw [heq] at hlen
      simpa using Nat.lt_of_succ_le (by simpa using hlen)
    · exact absurd h (by simp)

/-- The scanner for marker removal, structurally recursive on a fuel
bound (any fuel at least the text length gives the scan's fixpoint; the
fuel keeps the definition computable by the kernel). -/
def stripMarkersFuel : Nat → List Char → List Char
  | 0, s => s
  | _ + 1, [] => []
  | fuel + 1, c :: rest =>
    if c = '[' then
      match takeMarkerTail rest with
      | some r => stripMarkersFuel fuel r
      | none => c :: stripMarkersFuel fuel rest
    else c :: stripMarkersFuel fuel rest

/-- One-pass removal of all `[<digits>]` substrings, scanning left to right
and resuming after each removed marker (the semantics of
`text.replace(/\[\d+\]/g, "")`). -/
def stripMarkers (s : List Char) : List Char := stripMarkersFuel s.length s

theorem stripMarkersFuel_congr :
    ∀ (f1 : Nat) (f2 : Nat) (s : List Char), s.length ≤ f1 → s.length ≤ f2 →
      stripMarkersFuel f1 s = stripMarkersFuel f2 s := by
  intro f1
  induction f1 with
  | zero =>
    intro f2 s h1 _
    have : s = [] := List.length_eq_zero.mp (by omega)
    subst this
    cases f2 <;> rfl
  | succ f ih =>
    intro f2 s h1 h2
    cases s with
    | nil => cases f2 <;> rfl
    | cons c rest =>
      cases f2 with
      | zero => simp at h2
      | succ f2' =>
        simp only [stripMarkersFuel]
        by_cases hc : c = '['
        · rw [if_pos hc, if_pos hc]
          cases htm : takeMarkerTail rest with
          | some r =>
            have hr := takeMarkerTail_length htm
            simp only [List.length_cons] at h1 h2
            exact ih f2' r (by omega) (by omega)
          | none =>
            simp only [List.length_cons] at h1 h2
            rw [ih f2' rest (by omega) (by omega)]
        · rw [if_neg hc, if_neg hc]
          simp only [List.length_cons] at h1 h2
          rw [ih f2' rest (by omega) (by omega)]

theorem stripMarkers_nil : stripMarkers [] = [] := rfl

theorem stripMarkers_cons_of_ne {c : Char} (rest : List Char) (hc : c ≠ '[') :
    stripMarkers (c :: rest) = c :: stripMarkers rest := by
  show stripMarkersFuel (rest.length + 1) (c :: rest) = _
  simp only [stripMarkersFuel, if_neg hc]
  rfl

theorem stripMarkers_cons_some {rest r : List Char} (h : takeMarkerTail rest = some r) :
    stripMarkers ('[' :: rest) = stripMarkers r := by
  show stripMarkersFuel (rest.length + 1) ('[' :: rest) = _
  simp only [stripMarkersFuel, if_pos rfl, h]
  exact stripMarkersFuel_congr _ _ r (le_of_lt (takeMarkerTail_length h)) (le_refl _)

theorem stripMarkers_cons_none {rest : List Char} (h : takeMarkerTail rest = none) :
    stripMarkers ('[' :: rest) = '[' :: stripMarkers rest := by
  show stripMarkersFuel (rest.length + 1) ('[' :: rest) = _
  simp only [stripMarkersFuel, if_pos rfl, h]
  rfl

theorem stripMarkersFuel_length_le :
    ∀ (fuel : Nat) (s : List Char), (stripMarkersFuel fuel s).length ≤ s.length := by
  intro fuel
  induction fuel with
  | zero => intro s; simp [stripMarkersFuel]
  | succ f ih =>
    intro s
    cases s with
    | nil => simp [stripMarkersFuel]
    | cons c rest =>
      simp only [stripMarkersFuel]
      by_cases hc : c = '['
      · rw [if_pos hc]
        cases htm : takeMarkerTail rest with
        | some r =>
          have h1 := ih r
          have h2 := takeMarkerTail_length htm
          simp only [List.length_cons]
          omega
        | none =>
          have := ih rest
          simp only [List.length_cons]
          omega
      · rw [if_neg hc]
        have := ih rest
        simp only [List.length_cons]
        omega

theorem stripMarkers_length_le (s : List Char) : (stripMarkers s).length ≤ s.length :=
  stripMarkersFuel_length_le s.length s

/-! ## Texts obtained by inserting complete citation markers

`Inserted u x` says that `u` is `x` with whole citation markers
`[<digits>]` spliced in at arbitrary points.  The output of
`insertCitations` stands in this relation to its input whenever all
support offsets are within bounds. -/

inductive Inserted : List Char → List Char → Prop
  | nil : Inserted [] []
  | cons (c : Char) {u x : List Char} : Inserted u x → Inserted (c :: u) (c :: x)
  | marker (ds : List Char) (hne : ds ≠ []) (hdig : ∀ c ∈ ds, c.isDigit)
      {u x : List Char} : Inserted u x → Inserted ('[' :: (ds ++ ']' :: u)) x

theorem Inserted.refl : ∀ x : List Char, Inserted x x
  | [] => .nil
  | c :: rest => .cons c (Inserted.refl rest)

theorem Inserted.append {u x v y : List Char} (h : Inserted u x) (h' : Inserted v y) :
    Inserted (u ++ v) (x ++ y) := by
  induction h with
  | nil => simpa using h'
  | cons c _ ih => exact .cons c ih
  | marker ds hne hdig _ ih =>
    have := Inserted.marker ds hne hdig ih
    simpa using this

/-- Heads transfer along `Inserted` when the head is a digit (an inserted
marker always begins with `[`, which is not a digit). -/
theorem Inserted.head_digit {u x : List Char} {c : Char} (h : Inserted u x)
    (hu : u.head? = some c) (hd : c.isDigit) : x.head? = some c := by
  cases h with
  | nil => cases hu
  | cons c' _ => simpa using (by simpa using hu : c' = c) ▸ rfl
  | marker ds hne hdig _ =>
    have : c = '[' := by simpa using hu.symm
    subst this
    cases hd

/-- If, after skipping leading digits, `u` continues with `]`, then so does
`x`: the closing bracket of a would-be marker cannot have been contributed
by an insertion. -/
theorem Inserted.dropWhile_head {u x : List Char} (h : Inserted u x)
    (hu : (u.dropWhile Char.isDigit).head? = some ']') :
    (x.dropWhile Char.isDigit).head? = some ']' := by
  induction h with
  | nil => simp at hu
  | cons c _ ih =>
    by_cases hd : c.isDigit
    · rw [List.dropWhile_cons_of_pos (by simpa using hd)] at hu
      rw [List.dropWhile_cons_of_pos (by simpa using hd)]
      exact ih hu
    · rw [List.dropWhile_cons_of_neg (by simpa using hd)] at hu
      rw [List.dropWhile_cons_of_neg (by simpa using hd)]
      exact hu
  | marker ds hne hdig _ _ =>
    rw [List.dropWhile_cons_of_neg (by simp)] at hu
    simp at hu

theorem Inserted.takeMarkerTail_none {u x : List Char} (h : Inserted u x)
    (hx : takeMarkerTail x = none) : takeMarkerTail u = none := by
  by_contra hne
  obtain ⟨r, hr⟩ := Option.ne_none_iff_exists'.mp hne
  -- From a successful parse on `u`, rebuild one on `x`.
  unfold takeMarkerTail at hr
  split at hr
  · cases hr
  · next hemp =>
    split at hr
    · next hdrop =>
      -- u starts with a digit, and after its digits comes `]`.
      have hu_drop : (u.dropWhile Char.isDigit).head? = some ']' := by
        rw [hdrop]; rfl
      have hx_drop := h.dropWhile_head hu_drop
      have hu_head : ∃ c, u.head? = some c ∧ c.isDigit := by
        cases u with
        | nil => simp at hemp
        | cons c rest =>
          by_cases hd : c.isDigit
          · exact ⟨c, rfl, hd⟩
          · rw [List.takeWhile_cons_of_neg (by simpa using hd)] at hemp
            simp at hemp
      obtain ⟨c, hc, hcd⟩ := hu_head
      have hx_head := h.head_digit hc hcd
      -- x therefore also parses a marker tail, contradicting hx.
      unfold takeMarkerTail at hx
      split at hx
      · next hxe =>
        cases x with
        | nil => cases hx_head
        | cons c' rest =>
          have : c' = c := by simpa using hx_head
          subst this
          rw [List.takeWhile_cons_of_pos (by simpa using hcd)] at hxe
          simp at hxe
      · split at hx
        · cases hx
        · next hxd =>
          cases hd : x.dropWhile Char.isDigit with
          | nil => rw [hd] at hx_drop; cases hx_drop
          | cons c' rest =>
            rw [hd] at hx_drop
            have : c' = ']' := by simpa using hx_drop
            subst this
            exact hxd rest hd
    · cases hr

/-- If `s` has no `[<digits>]` substring (equivalently, stripping is a
no-op on it) and `u` is `s` with complete markers inserted, then stripping
`u` recovers `s` exactly. -/
theorem stripMarkers_of_inserted {u x : List Char} (h : Inserted u x)
    (hx : stripMarkers x = x) : stripMarkers u = x := by
  induction h with
  | nil => exact stripMarkers_nil
  | cons c h ih =>
    rename_i u' x'
    by_cases hc : c = '['
    · subst hc
      -- From hx, x' cannot start with a marker tail.
      have hxnone : takeMarkerTail x' = none := by
        cases htm : takeMarkerTail x' with
        | none => rfl
        | some r =>
          have := stripMarkers_cons_some htm
          rw [this] at hx
          have h1 : (stripMarkers r).length ≤ r.length := stripMarkers_length_le r
          have h2 : r.length < x'.length := takeMarkerTail_length htm
          have : x'.length + 1 ≤ r.length := by
            have := congrArg List.length hx
            simp at this
            omega
          omega
      have hx' : stripMarkers x' = x' := by
        have := stripMarkers_cons_none hxnone
        rw [this] at hx
        simpa using hx
      have hunone : takeMarkerTail u' = none := h.takeMarkerTail_none hxnone
      rw [stripMarkers_cons_none hunone, ih hx']
    · have hx' : stripMarkers x' = x' := by
        rw [stripMarkers_cons_of_ne _ hc] at hx
        simpa using hx
      rw [stripMarkers_cons_of_ne _ hc, ih hx']
  | marker ds hne hdig h ih =>
    rename_i u' x'
    -- The inserted marker is consumed whole by the scanner.
    have htm : takeMarkerTail (ds ++ ']' :: u') = some u' := by
      have htake : (ds ++ ']' :: u').takeWhile Char.isDigit = ds := by
        rw [List.takeWhile_append_of_pos ?_]
        · rw [List.takeWhile_cons_of_neg (by simp)]
          simp
        · simpa using hdig
      have hdrop : (ds ++ ']' :: u').dropWhile Char.isDigit = ']' :: u' := by
        rw [List.dropWhile_append_of_pos ?_]
        · rw [List.dropWhile_cons_of_neg (by simp)]
        · simpa using hdig
      unfold takeMarkerTail
      rw [htake, hdrop]
      simp [hne]
    rw [stripMarkers_cons_some htm]
    exact ih hx

/-! ## `Formatter.insertCitations` (src/utils/formatter.ts, lines 87–131) -/

/-- The marker string built for one support:
`support.groundingChunkIndices.map(idx => "[" + (idx+1) + "]").join("")`. -/
def citationsOf (is : List Nat) : List Char :=
  (is.map (fun i => '[' :: (natDigits (i + 1) ++ [']']))).flatten

/-- `result.slice(0, position) + citations + result.slice(position)`. -/
def insertAt (res : List Char) (p : Nat) (b : List Char) : List Char :=
  res.take p ++ b ++ res.drop p

/-- Applying a sequence of `(position, marker-string)` splices in order. -/
def insertFold (res : List Char) : List (Nat × List Char) → List Char
  | [] => res
  | (p, b) :: rest => insertFold (insertAt res p b) rest

/-- `support.endIndex ?? support.segment?.endIndex` — the insertion offset. -/
def supportPos (s : GroundingSupport) : Option Nat :=
  s.endIndex.or (s.segment.bind SegmentInfo.endIndex)

/-- `support.endIndex ?? support.segment?.endIndex ?? 0` — the sort key. -/
def supportKey (s : GroundingSupport) : Nat :=
  (supportPos s).getD 0

/-- The descending-offset insertion loop of `insertCitations`, with the
`insertedPositions` set threaded through as a list. -/
def insertLoop : List GroundingSupport → List Char → List Nat → List Char
  | [], res, _ => res
  | s :: rest, res, ins =>
    match s.groundingChunkIndices with
    | none => insertLoop rest res ins
    | some is =>
      if is.isEmpty then insertLoop rest res ins
      else
        match supportPos s with
        | none => insertLoop rest res ins
        | some p =>
          if p = 0 then insertLoop rest res ins
          else if p ∈ ins then insertLoop rest res ins
          else insertLoop rest (insertAt res p (citationsOf is)) (p :: ins)

/-- `Formatter.insertCitations`.  The supports are sorted by descending
effective end offset (`(a, b) => bIndex - aIndex`, a stable sort) and the
markers spliced back to front; a position that already received an
insertion is skipped, as are supports with no chunk indices and supports
whose effective offset is missing or `0`. -/
def insertCitations (text : List Char) (gs : List GroundingSupport) : List Char :=
  if gs.isEmpty then text
  else
    insertLoop (gs.mergeSort (fun a b => decide (supportKey b ≤ supportKey a))) text []

/-- The guard applied to one support by the insertion loop: the event
`(position, marker-string)` it splices, if any.  A support is skipped when
it has no chunk indices, its chunk-index list is empty, its effective
offset is missing or `0`, or its offset already received an insertion. -/
def supportEvent (s : GroundingSupport) (ins : List Nat) : Option (Nat × List Char) :=
  match s.groundingChunkIndices with
  | none => none
  | some is =>
    if is.isEmpty then none
    else
      match supportPos s with
      | none => none
      | some p =>
        if p = 0 then none
        else if p ∈ ins then none
        else some (p, citationsOf is)

/-- The `(position, marker-string)` splices that `insertLoop` performs,
extracted as data. -/
def insertEvents : List GroundingSupport → List Nat → List (Nat × List Char)
  | [], _ => []
  | s :: rest, ins =>
    match supportEvent s ins with
    | none => insertEvents rest ins
    | some e => e :: insertEvents rest (e.1 :: ins)

theorem insertLoop_cons (s : GroundingSupport) (rest : List GroundingSupport)
    (res : List Char) (ins : List Nat) :
    insertLoop (s :: rest) res ins =
      match supportEvent s ins with
      | none => insertLoop rest res ins
      | some e => insertLoop rest (insertAt res e.1 e.2) (e.1 :: ins) := by
  simp only [insertLoop, supportEvent]
  cases s.groundingChunkIndices with
  | none => rfl
  | some is =>
    by_cases hemp : is.isEmpty
    · simp [hemp]
    · simp only [if_neg hemp]
      cases supportPos s with
      | none => rfl
      | some p =>
        by_cases hp : p = 0
        · simp [hp]
        · simp only [if_neg hp]
          by_cases hmem : p ∈ ins
          · simp [hmem]
          · simp [hmem]

theorem supportEvent_some {s : GroundingSupport} {ins : List Nat} {e : Nat × List Char}
    (h : supportEvent s ins = some e) :
    supportPos s = some e.1 ∧ e.1 ∉ ins ∧ ∃ is, e.2 = citationsOf is := by
  unfold supportEvent at h
  split at h
  · cases h
  · split at h
    · cases h
    · split at h
      · cases h
      · next p hsp =>
        split at h
        · cases h
        · split at h
          · cases h
          · next hmem =>
            cases h
            exact ⟨hsp, hmem, _, rfl⟩

theorem insertLoop_eq_fold (l : List GroundingSupport) (res : List Char) (ins : List Nat) :
    insertLoop l res ins = insertFold res (insertEvents l ins) := by
  induction l generalizing res ins with
  | nil => rfl
  | cons s rest ih =>
    rw [insertLoop_cons]
    simp only [insertEvents]
    cases supportEvent s ins with
    | none => exact ih res ins
    | some e => simp only [insertFold]; exact ih _ _

theorem insertEvents_mem {l : List GroundingSupport} :
    ∀ {ins : List Nat} {e : Nat × List Char}, e ∈ insertEvents l ins →
      ∃ s ∈ l, supportPos s = some e.1 := by
  induction l with
  | nil => intro ins e he; simp [insertEvents] at he
  | cons s rest ih =>
    intro ins e he
    simp only [insertEvents] at he
    cases hev : supportEvent s ins with
    | none =>
      rw [hev] at he
      obtain ⟨s', hs', h⟩ := ih he
      exact ⟨s', List.mem_cons_of_mem _ hs', h⟩
    | some e' =>
      rw [hev] at he
      rcases List.mem_cons.mp he with he | he
      · subst he
        exact ⟨s, List.mem_cons_self _ _, (supportEvent_some hev).1⟩
      · obtain ⟨s', hs', h⟩ := ih he
        exact ⟨s', List.mem_cons_of_mem _ hs', h⟩

theorem insertEvents_not_mem_ins {l : List GroundingSupport} :
    ∀ {ins : List Nat} {e : Nat × List Char}, e ∈ insertEvents l ins → e.1 ∉ ins := by
  induction l with
  | nil => intro ins e he; simp [insertEvents] at he
  | cons s rest ih =>
    intro ins e he
    simp only [insertEvents] at he
    cases hev : supportEvent s ins with
    | none => rw [hev] at he; exact ih he
    | some e' =>
      rw [hev] at he
      rcases List.mem_cons.mp he with he | he
      · subst he; exact (supportEvent_some hev).2.1
      · intro hin
        exact ih he (List.mem_cons_of_mem _ hin)

theorem insertEvents_blocks {l : List GroundingSupport} :
    ∀ {ins : List Nat} {e : Nat × List Char}, e ∈ insertEvents l ins →
      ∃ is, e.2 = citationsOf is := by
  induction l with
  | nil => intro ins e he; simp [insertEvents] at he
  | cons s rest ih =>
    intro ins e he
    simp only [insertEvents] at he
    cases hev : supportEvent s ins with
    | none => rw [hev] at he; exact ih he
    | some e' =>
      rw [hev] at he
      rcases List.mem_cons.mp he with he | he
      · subst he; exact (supportEvent_some hev).2.2
      · exact ih he

/-- Positions along `insertEvents` are strictly descending when the input
supports are sorted by nonincreasing key (deduplication against the
`insertedPositions` set turns ties into skips). -/
theorem insertEvents_strict_desc {l : List GroundingSupport}
    (hsort : l.Pairwise (fun a b => supportKey b ≤ supportKey a)) :
    ∀ ins, (insertEvents l ins).Pairwise (fun a b => b.1 < a.1) := by
  induction l with
  | nil => intro ins; simp [insertEvents]
  | cons s rest ih =>
    intro ins
    have htail := ih (hsort.sublist (List.sublist_cons_self s rest))
    simp only [insertEvents]
    cases hev : supportEvent s ins with
    | none => exact htail ins
    | some e =>
      refine List.Pairwise.cons ?_ (htail (e.1 :: ins))
      intro e' he'
      have hnotin := insertEvents_not_mem_ins he'
      obtain ⟨s', hs', hpos⟩ := insertEvents_mem he'
      have hkey : supportKey s' ≤ supportKey s :=
        (List.pairwise_cons.mp hsort).1 s' hs'
      have h1 : supportKey s' = e'.1 := by simp [supportKey, hpos]
      have h2 : supportKey s = e.1 := by simp [supportKey, (supportEvent_some hev).1]
      have hne : e'.1 ≠ e.1 := fun hEq => hnotin (hEq ▸ List.mem_cons_self _ _)
      omega

theorem insertEvents_bound {l : List GroundingSupport} {ins : List Nat} {n : Nat}
    (hb : ∀ s ∈ l, ∀ p, supportPos s = some p → p ≤ n) :
    ∀ e ∈ insertEvents l ins, e.1 ≤ n := by
  intro e he
  obtain ⟨s, hs, hpos⟩ := insertEvents_mem he
  exact hb s hs e.1 hpos

/-- Prepending a support's marker string preserves the `Inserted` relation:
it is a concatenation of complete `[<digits>]` markers. -/
theorem Inserted.citationsOf_append {v y : List Char} (is : List Nat)
    (h : Inserted v y) : Inserted (citationsOf is ++ v) y := by
  induction is with
  | nil => simpa [citationsOf] using h
  | cons i rest ih =>
    have : citationsOf (i :: rest) ++ v
        = '[' :: ((natDigits (i + 1)) ++ ']' :: (citationsOf rest ++ v)) := by
      simp [citationsOf]
    rw [this]
    exact .marker _ (natDigits_ne_nil _) (natDigits_all_digit _) ih

/-- Insertions strictly below a prefix boundary only touch the prefix. -/
theorem insertFold_append {u v : List Char} {L : List (Nat × List Char)}
    (hb : ∀ e ∈ L, e.1 ≤ u.length) :
    insertFold (u ++ v) L = insertFold u L ++ v := by
  induction L generalizing u with
  | nil => rfl
  | cons e rest ih =>
    obtain ⟨p, b⟩ := e
    have hp : p ≤ u.length := hb (p, b) (List.mem_cons_self _ _)
    simp only [insertFold]
    have hins : insertAt (u ++ v) p b = insertAt u p b ++ v := by
      unfold insertAt
      rw [List.take_append_of_le_length hp, List.drop_append_of_le_length hp]
      simp
    rw [hins]
    refine ih ?_
    intro e' he'
    have : e'.1 ≤ u.length := hb e' (List.mem_cons_of_mem _ he')
    have hlen : u.length ≤ (insertAt u p b).length := by
      unfold insertAt
      simp only [List.length_append, List.length_take, List.length_drop]
      omega
    omega

/-- The result of splicing marker strings at strictly descending, in-bounds
positions stands in the `Inserted` relation to the original text. -/
theorem inserted_insertFold (t : List Char) (L : List (Nat × List Char))
    (hdesc : L.Pairwise (fun a b => b.1 < a.1))
    (hbound : ∀ e ∈ L, e.1 ≤ t.length)
    (hblocks : ∀ e ∈ L, ∃ is, e.2 = citationsOf is) :
    Inserted (insertFold t L) t := by
  induction L generalizing t with
  | nil => exact Inserted.refl t
  | cons e rest ih =>
    obtain ⟨p, b⟩ := e
    have hp : p ≤ t.length := hbound (p, b) (List.mem_cons_self _ _)
    have hrest_lt : ∀ e' ∈ rest, e'.1 < p := fun e' he' =>
      (List.pairwise_cons.mp hdesc).1 e' he'
    simp only [insertFold]
    have hsplit : insertAt t p b = t.take p ++ (b ++ t.drop p) := by
      unfold insertAt; simp
    rw [hsplit]
    have htake_len : (t.take p).length = p := by
      simp [List.length_take, Nat.min_eq_left hp]
    have hfold : insertFold (t.take p ++ (b ++ t.drop p)) rest
        = insertFold (t.take p) rest ++ (b ++ t.drop p) := by
      refine insertFold_append ?_
      intro e' he'
      have := hrest_lt e' he'
      omega
    rw [hfold]
    have hX : Inserted (insertFold (t.take p) rest) (t.take p) := by
      refine ih _ (hdesc.sublist (List.sublist_cons_self _ _)) ?_ ?_
      · intro e' he'
        have := hrest_lt e' he'
        omega
      · intro e' he'
        exact hblocks e' (List.mem_cons_of_mem _ he')
    obtain ⟨is, his⟩ := hblocks (p, b) (List.mem_cons_self _ _)
    have hY : Inserted (b ++ t.drop p) (t.drop p) := by
      rw [show b = (p, b).2 from rfl, his]
      exact Inserted.citationsOf_append is (Inserted.refl _)
    have := hX.append hY
    rwa [List.take_append_drop] at this

/-! ## `parseTextWithCitations` (src/utils/citation-parser.ts, lines 13–93) -/

/-- `TextSegment` from src/types/index.ts, with offsets as `Nat` and text as
a character list. -/
structure TextSegment where
  text : List Char
  citationIds : List Nat
  startIndex : Nat
  endIndex : Nat
  deriving Repr, DecidableEq

/-- `text.slice(a, b)` for `Nat` offsets (JavaScript clamps, and so do
`drop`/`take`). -/
def sliceL (t : List Char) (a b : Nat) : List Char := (t.drop a).take (b - a)

/-- `parseInt(digits, 10)` on a digit string.  (JavaScript would lose
precision beyond 2^53; citation numbers are far below that.) -/
def digitsToNat (ds : List Char) : Nat :=
  ds.foldl (fun n c => n * 10 + (c.toNat - 48)) 0

/-- If `s` begins with a complete `<digits>]`, return the digits and the
remainder; the regex `\[(\d+)\]` matches at a `[` exactly under this
condition. -/
def matchMarker (s : List Char) : Option (List Char × List Char) :=
  if (s.takeWhile Char.isDigit).isEmpty then none
  else
    match s.dropWhile Char.isDigit with
    | ']' :: r => some (s.takeWhile Char.isDigit, r)
    | _ => none

theorem matchMarker_length {s ds r : List Char} (h : matchMarker s = some (ds, r)) :
    s.length = ds.length + 1 + r.length := by
  unfold matchMarker at h
  split at h
  · cases h
  · split at h
    · next heq =>
      cases h
      have hsplit : s.takeWhile Char.isDigit ++ s.dropWhile Char.isDigit = s :=
        List.takeWhile_append_dropWhile Char.isDigit s
      have := congrArg List.length hsplit
      rw [heq] at this
      simp at this
      omega
    · cases h

/-- The match scanner, structurally recursive on a fuel bound (any fuel
at least the text length gives the scan's fixpoint; the fuel keeps the
definition computable by the kernel). -/
def findCitationsFuel : Nat → List Char → Nat → List (Nat × Nat × Nat)
  | 0, _, _ => []
  | _ + 1, [], _ => []
  | fuel + 1, c :: rest, i =>
    if c = '[' then
      match matchMarker rest with
      | some (ds, r) =>
          (i, ds.length + 2, digitsToNat ds) :: findCitationsFuel fuel r (i + ds.length + 2)
      | none => findCitationsFuel fuel rest (i + 1)
    else findCitationsFuel fuel rest (i + 1)

/-- All matches of `/\[(\d+)\]/g` on the suffix starting at absolute index
`i`: a list of `(index, matchLength, citationNumber)` triples in scan
order (non-overlapping, resuming after each match). -/
def findCitationsAux (s : List Char) (i : Nat) : List (Nat × Nat × Nat) :=
  findCitationsFuel s.length s i

theorem findCitationsFuel_congr :
    ∀ (f1 : Nat) (f2 : Nat) (s : List Char) (i : Nat), s.length ≤ f1 → s.length ≤ f2 →
      findCitationsFuel f1 s i = findCitationsFuel f2 s i := by
  intro f1
  induction f1 with
  | zero =>
    intro f2 s i h1 _
    have : s = [] := List.length_eq_zero.mp (by omega)
    subst this
    cases f2 <;> rfl
  | succ f ih =>
    intro f2 s i h1 h2
    cases s with
    | nil => cases f2 <;> rfl
    | cons c rest =>
      cases f2 with
      | zero => simp at h2
      | succ f2' =>
        by_cases hc : c = '['
        · cases hmm : matchMarker rest with
          | some p =>
            obtain ⟨ds, r⟩ := p
            have hr := matchMarker_length hmm
            simp only [findCitationsFuel, if_pos hc, hmm]
            simp only [List.length_cons] at h1 h2
            rw [ih f2' r _ (by omega) (by omega)]
          | none =>
            simp only [findCitationsFuel, if_pos hc, hmm]
            simp only [List.length_cons] at h1 h2
            rw [ih f2' rest _ (by omega) (by omega)]
        · simp only [findCitationsFuel, if_neg hc]
          simp only [List.length_cons] at h1 h2
          rw [ih f2' rest _ (by omega) (by omega)]

def findCitations (t : List Char) : List (Nat × Nat × Nat) := findCitationsAux t 0

/-- The length matched by `remainingText.match(/^[^.!?]*[.!?]/)`: up to and
including the first sentence-ending character, `0` if there is none. -/
def sentenceExt (s : List Char) : Nat :=
  match s.findIdx? (fun c => c == '.' || c == '!' || c == '?') with
  | some j => j + 1
  | none => 0

/-- `segmentText.trim()` is falsy iff every character is whitespace.
(JavaScript `trim` strips Unicode whitespace; `Char.isWhitespace` covers
the ASCII cases, which is what the repository's texts exercise.) -/
def isBlank (s : List Char) : Bool := s.all Char.isWhitespace

/-- The push-or-merge step for the segment that carries the citation
marker: if the accumulated list ends in a segment that is textually
adjacent (`endIndex = matchIndex`) and already carries citation ids, the
new material is merged into it; otherwise a fresh segment is pushed. -/
def pushOrMerge (segs1 : List TextSegment) (segWC : List Char)
    (num mIdx endIndex : Nat) : List TextSegment :=
  match segs1.getLast? with
  | some lastSeg =>
    if lastSeg.endIndex = mIdx ∧ lastSeg.citationIds ≠ [] then
      segs1.dropLast ++
        [⟨lastSeg.text ++ segWC, lastSeg.citationIds ++ [num],
          lastSeg.startIndex, endIndex⟩]
    else segs1 ++ [⟨segWC, [num], mIdx, endIndex⟩]
  | none => segs1 ++ [⟨segWC, [num], mIdx, endIndex⟩]

theorem pushOrMerge_nil {segs1 : List TextSegment} {w : List Char} {num mIdx e : Nat}
    (h : segs1.getLast? = none) :
    pushOrMerge segs1 w num mIdx e = segs1 ++ [⟨w, [num], mIdx, e⟩] := by
  unfold pushOrMerge
  rw [h]

theorem pushOrMerge_merge {segs1 : List TextSegment} {ls : TextSegment}
    {w : List Char} {num mIdx e : Nat} (h : segs1.getLast? = some ls)
    (hc : ls.endIndex = mIdx ∧ ls.citationIds ≠ []) :
    pushOrMerge segs1 w num mIdx e =
      segs1.dropLast ++ [⟨ls.text ++ w, ls.citationIds ++ [num], ls.startIndex, e⟩] := by
  unfold pushOrMerge
  simp only [h]
  rw [if_pos hc]

theorem pushOrMerge_push {segs1 : List TextSegment} {ls : TextSegment}
    {w : List Char} {num mIdx e : Nat} (h : segs1.getLast? = some ls)
    (hc : ¬ (ls.endIndex = mIdx ∧ ls.citationIds ≠ [])) :
    pushOrMerge segs1 w num mIdx e = segs1 ++ [⟨w, [num], mIdx, e⟩] := by
  unfold pushOrMerge
  simp only [h]
  rw [if_neg hc]

/-- The main loop of `parseTextWithCitations`: walk the matches, pushing a
plain segment for each non-blank stretch before a marker, extending each
marker's segment to the end of the sentence, and merging a marker segment
into an immediately preceding, textually adjacent segment that already
carries citation ids.  After the loop, push the non-blank remaining text. -/
def parseLoop (t : List Char) : List (Nat × Nat × Nat) → Nat → List TextSegment →
    List TextSegment
  | [], lastIndex, segs =>
    if lastIndex < t.length ∧ ¬ isBlank (t.drop lastIndex) then
      segs ++ [⟨t.drop lastIndex, [], lastIndex, t.length⟩]
    else segs
  | (mIdx, mLen, num) :: rest, lastIndex, segs =>
    let segs1 :=
      if mIdx > lastIndex ∧ ¬ isBlank (sliceL t lastIndex mIdx) then
        segs ++ [⟨sliceL t lastIndex mIdx, [], lastIndex, mIdx⟩]
      else segs
    let endIndex := mIdx + mLen + sentenceExt (t.drop (mIdx + mLen))
    parseLoop t rest endIndex (pushOrMerge segs1 (sliceL t mIdx endIndex) num mIdx endIndex)

/-- `parseTextWithCitations`: the segments and the set of all citation
numbers seen in markers. -/
def parseTextWithCitations (t : List Char) : List TextSegment × Finset Nat :=
  (parseLoop t (findCitations t) 0 [],
   ((findCitations t).map (fun m => m.2.2)).toFinset)

/-- Well-formedness of a match list relative to a lower bound `lo` and the
text length `total`: matches are in increasing order, non-overlapping, and
within bounds. -/
def MatchesWF : List (Nat × Nat × Nat) → Nat → Nat → Prop
  | [], _, _ => True
  | (j, len, _) :: rest, lo, total =>
      lo ≤ j ∧ 1 ≤ len ∧ j + len ≤ total ∧ MatchesWF rest (j + len) total

theorem MatchesWF.mono {ms : List (Nat × Nat × Nat)} {lo lo' total : Nat}
    (h : MatchesWF ms lo' total) (hle : lo ≤ lo') : MatchesWF ms lo total := by
  cases ms with
  | nil => trivial
  | cons m rest =>
    obtain ⟨j, len, n⟩ := m
    obtain ⟨h1, h2, h3, h4⟩ := h
    exact ⟨le_trans hle h1, h2, h3, h4⟩

theorem findCitationsAux_nil (i : Nat) : findCitationsAux [] i = [] := rfl

theorem findCitationsAux_cons_some {rest ds r : List Char} (i : Nat)
    (h : matchMarker rest = some (ds, r)) :
    findCitationsAux ('[' :: rest) i
      = (i, ds.length + 2, digitsToNat ds) :: findCitationsAux r (i + ds.length + 2) := by
  have hstep : findCitationsAux ('[' :: rest) i
      = (i, ds.length + 2, digitsToNat ds)
        :: findCitationsFuel rest.length r (i + ds.length + 2) := by
    show findCitationsFuel (rest.length + 1) ('[' :: rest) i = _
    simp [findCitationsFuel, h]
  rw [hstep]
  congr 1
  have hlen := matchMarker_length h
  refine findCitationsFuel_congr _ _ r _ ?_ (le_refl _)
  omega

theorem findCitationsAux_cons_none {rest : List Char} (i : Nat)
    (h : matchMarker rest = none) :
    findCitationsAux ('[' :: rest) i = findCitationsAux rest (i + 1) := by
  show findCitationsFuel (rest.length + 1) ('[' :: rest) i = _
  simp only [findCitationsFuel, if_pos rfl, h]
  rfl

theorem findCitationsAux_cons_ne {c : Char} (rest : List Char) (i : Nat) (hc : c ≠ '[') :
    findCitationsAux (c :: rest) i = findCitationsAux rest (i + 1) := by
  show findCitationsFuel (rest.length + 1) (c :: rest) i = _
  simp only [findCitationsFuel, if_neg hc]
  rfl

theorem findCitationsFuel_wf :
    ∀ (fuel : Nat) (s : List Char) (i : Nat), s.length ≤ fuel →
      MatchesWF (findCitationsFuel fuel s i) i (i + s.length) := by
  intro fuel
  induction fuel with
  | zero =>
    intro s i h
    have : s = [] := List.length_eq_zero.mp (by omega)
    subst this
    exact trivial
  | succ f ih =>
    intro s i h
    cases s with
    | nil => exact trivial
    | cons c rest =>
      by_cases hc : c = '['
      · cases hmm : matchMarker rest with
        | some p =>
          obtain ⟨ds, r⟩ := p
          have hlen := matchMarker_length hmm
          simp only [findCitationsFuel, if_pos hc, hmm]
          simp only [List.length_cons] at h
          refine ⟨le_refl _, by omega, by simp; omega, ?_⟩
          have hcall := ih r (i + ds.length + 2) (by omega)
          have htot : i + (c :: rest).length = (i + ds.length + 2) + r.length := by
            simp
            omega
          rw [htot]
          exact hcall
        | none =>
          simp only [findCitationsFuel, if_pos hc, hmm]
          simp only [List.length_cons] at h
          have hcall := ih rest (i + 1) (by omega)
          have htot : i + (c :: rest).length = (i + 1) + rest.length := by
            simp
            omega
          rw [htot]
          exact hcall.mono (by omega)
      · simp only [findCitationsFuel, if_neg hc]
        simp only [List.length_cons] at h
        have hcall := ih rest (i + 1) (by omega)
        have htot : i + (c :: rest).length = (i + 1) + rest.length := by
          simp
          omega
        rw [htot]
        exact hcall.mono (by omega)

theorem findCitationsAux_wf (s : List Char) (i : Nat) :
    MatchesWF (findCitationsAux s i) i (i + s.length) :=
  findCitationsFuel_wf s.length s i (le_refl _)

theorem sentenceExt_le (s : List Char) : sentenceExt s ≤ s.length := by
  unfold sentenceExt
  split
  · next j hj =>
    have := List.findIdx?_eq_some_iff_findIdx_eq.mp hj
    omega
  · omega

theorem sliceL_append {t : List Char} {a b c : Nat} (hab : a ≤ b) (hbc : b ≤ c) :
    sliceL t a b ++ sliceL t b c = sliceL t a c := by
  unfold sliceL
  have hdrop : t.drop b = (t.drop a).drop (b - a) := by
    rw [List.drop_drop]
    congr 1
    omega
  rw [hdrop]
  have hsum : c - a = (b - a) + (c - b) := by omega
  rw [hsum, List.take_add]

theorem sliceL_full {t : List Char} {a : Nat} : sliceL t a t.length = t.drop a := by
  unfold sliceL
  exact List.take_of_length_le (by simp)

/-- Per-segment well-formedness: the text is the exact slice of the input
between the recorded offsets, which are ordered and within bounds. -/
def SegWF (t : List Char) (seg : TextSegment) : Prop :=
  seg.text = sliceL t seg.startIndex seg.endIndex ∧
  seg.startIndex ≤ seg.endIndex ∧ seg.endIndex ≤ t.length

/-- The invariants carried through `parseLoop`: every accumulated segment
is well-formed, start offsets strictly increase, and the last segment (if
any) ends exactly at `lastIndex` and starts before the end of the last
processed match. -/
theorem parseLoop_invariant (t : List Char) (ms : List (Nat × Nat × Nat))
    (lastIndex prevBound : Nat) (segs : List TextSegment)
    (hwf : MatchesWF ms prevBound t.length)
    (hpb : prevBound ≤ lastIndex) (hli : lastIndex ≤ t.length)
    (hC : ∀ seg ∈ segs, SegWF t seg)
    (hD : segs.Chain' (fun a b => a.startIndex < b.startIndex))
    (hE : ∀ seg ∈ segs.getLast?, seg.endIndex = lastIndex ∧ seg.startIndex < prevBound) :
    (∀ seg ∈ parseLoop t ms lastIndex segs, SegWF t seg) ∧
    (parseLoop t ms lastIndex segs).Chain' (fun a b => a.startIndex < b.startIndex) := by
  induction ms generalizing lastIndex prevBound segs with
  | nil =>
    simp only [parseLoop]
    split
    · next hcond =>
      constructor
      · intro seg hseg
        rcases List.mem_append.mp hseg with hseg | hseg
        · exact hC seg hseg
        · rw [List.mem_singleton] at hseg
          subst hseg
          exact ⟨sliceL_full.symm, hli, le_refl _⟩
      · rw [List.chain'_append]
        refine ⟨hD, List.chain'_singleton _, ?_⟩
        intro x hx y hy
        rw [List.head?_cons, Option.mem_some_iff] at hy
        subst hy
        have := hE x hx
        show x.startIndex < lastIndex
        omega
    · exact ⟨hC, hD⟩
  | cons m rest ih =>
    obtain ⟨mIdx, mLen, num⟩ := m
    obtain ⟨hlo, hlen1, hbound, hwf'⟩ := hwf
    simp only [parseLoop]
    set endIndex := mIdx + mLen + sentenceExt (t.drop (mIdx + mLen)) with hEnd
    have hext : sentenceExt (t.drop (mIdx + mLen)) ≤ t.length - (mIdx + mLen) := by
      have := sentenceExt_le (t.drop (mIdx + mLen))
      simpa using this
    have hEndLe : endIndex ≤ t.length := by omega
    have hmIdxLt : mIdx < endIndex := by omega
    have hWC : SegWF t ⟨sliceL t mIdx endIndex, [num], mIdx, endIndex⟩ :=
      ⟨rfl, le_of_lt hmIdxLt, hEndLe⟩
    by_cases hpush : mIdx > lastIndex ∧ ¬ isBlank (sliceL t lastIndex mIdx)
    case pos =>
      rw [if_pos hpush]
      set plain : TextSegment := ⟨sliceL t lastIndex mIdx, [], lastIndex, mIdx⟩ with hplain
      rw [pushOrMerge_push (List.getLast?_concat _) (by simp [hplain])]
      refine ih endIndex (mIdx + mLen) _ hwf' (by omega) hEndLe ?_ ?_ ?_
      · intro seg hseg
        rcases List.mem_append.mp hseg with hseg | hseg
        · rcases List.mem_append.mp hseg with hseg | hseg
          · exact hC seg hseg
          · rw [List.mem_singleton] at hseg
            subst hseg
            refine ⟨rfl, ?_, ?_⟩
            · show lastIndex ≤ mIdx
              omega
            · show mIdx ≤ t.length
              omega
        · rw [List.mem_singleton] at hseg
          subst hseg
          exact hWC
      · rw [List.chain'_append]
        refine ⟨?_, List.chain'_singleton _, ?_⟩
        · rw [List.chain'_append]
          refine ⟨hD, List.chain'_singleton _, ?_⟩
          intro x hx y hy
          rw [List.head?_cons, Option.mem_some_iff] at hy
          subst hy
          have := hE x hx
          show x.startIndex < lastIndex
          omega
        · intro x hx y hy
          rw [List.getLast?_concat, Option.mem_some_iff] at hx
          rw [List.head?_cons, Option.mem_some_iff] at hy
          subst hx; subst hy
          show lastIndex < mIdx
          omega
      · intro seg hseg
        rw [List.getLast?_concat, Option.mem_some_iff] at hseg
        subst hseg
        refine ⟨rfl, ?_⟩
        show mIdx < mIdx + mLen
        omega
    case neg =>
      rw [if_neg hpush]
      cases hlast : segs.getLast? with
      | none =>
        have hsegs_nil : segs = [] := List.getLast?_eq_none_iff.mp hlast
        subst hsegs_nil
        rw [pushOrMerge_nil (by simp)]
        refine ih endIndex (mIdx + mLen) _ hwf' (by omega) hEndLe ?_ ?_ ?_
        · intro seg hseg
          rcases List.mem_append.mp hseg with hseg | hseg
          · simp at hseg
          · rw [List.mem_singleton] at hseg
            subst hseg
            exact hWC
        · simp
        · intro seg hseg
          simp only [List.nil_append, List.getLast?_singleton, Option.mem_some_iff] at hseg
          subst hseg
          refine ⟨rfl, ?_⟩
          show mIdx < mIdx + mLen
          omega
      | some lastSeg =>
        have hsegs_ne : segs ≠ [] := by
          intro hnil
          rw [hnil] at hlast
          cases hlast
        have hlastE : lastSeg.endIndex = lastIndex ∧ lastSeg.startIndex < prevBound := by
          refine hE lastSeg ?_
          rw [hlast]; rfl
        have hlast_mem : lastSeg ∈ segs := by
          have hgl := List.getLast?_eq_getLast segs hsegs_ne
          rw [hgl, Option.some_inj] at hlast
          rw [← hlast]
          exact List.getLast_mem hsegs_ne
        have hlastC : SegWF t lastSeg := hC lastSeg hlast_mem
        have hdecomp : segs.dropLast ++ [lastSeg] = segs := by
          have hgl := List.getLast?_eq_getLast segs hsegs_ne
          rw [hgl, Option.some_inj] at hlast
          rw [← hlast]
          exact List.dropLast_append_getLast hsegs_ne
        by_cases hmerge : lastSeg.endIndex = mIdx ∧ lastSeg.citationIds ≠ []
        case pos =>
          rw [pushOrMerge_merge hlast hmerge]
          have hmergedWF : SegWF t
              ⟨lastSeg.text ++ sliceL t mIdx endIndex,
                lastSeg.citationIds ++ [num], lastSeg.startIndex, endIndex⟩ := by
            obtain ⟨htext, hse, hel⟩ := hlastC
            refine ⟨?_, ?_, hEndLe⟩
            · show lastSeg.text ++ sliceL t mIdx endIndex
                = sliceL t lastSeg.startIndex endIndex
              rw [htext, hmerge.1]
              exact sliceL_append (by rw [← hmerge.1]; exact hse) (le_of_lt hmIdxLt)
            · show lastSeg.startIndex ≤ endIndex
              have : lastSeg.startIndex ≤ mIdx := by rw [← hmerge.1]; exact hse
              omega
          have hdropC : ∀ seg ∈ segs.dropLast, SegWF t seg := by
            intro seg hseg
            exact hC seg ((List.dropLast_sublist segs).mem hseg)
          have hdropD : segs.dropLast.Chain' (fun a b => a.startIndex < b.startIndex) := by
            conv at hD => rw [← hdecomp]
            exact (List.chain'_append.mp hD).1
          refine ih endIndex (mIdx + mLen) _ hwf' (by omega) hEndLe ?_ ?_ ?_
          · intro seg hseg
            rcases List.mem_append.mp hseg with hseg | hseg
            · exact hdropC seg hseg
            · rw [List.mem_singleton] at hseg
              subst hseg
              exact hmergedWF
          · rw [List.chain'_append]
            refine ⟨hdropD, List.chain'_singleton _, ?_⟩
            intro x hx y hy
            rw [List.head?_cons, Option.mem_some_iff] at hy
            subst hy
            conv at hD => rw [← hdecomp]
            have := (List.chain'_append.mp hD).2.2 x hx lastSeg (by simp)
            exact this
          · intro seg hseg
            rw [List.getLast?_concat, Option.mem_some_iff] at hseg
            subst hseg
            refine ⟨rfl, ?_⟩
            show lastSeg.startIndex < mIdx + mLen
            omega
        case neg =>
          rw [pushOrMerge_push hlast hmerge]
          refine ih endIndex (mIdx + mLen) _ hwf' (by omega) hEndLe ?_ ?_ ?_
          · intro seg hseg
            rcases List.mem_append.mp hseg with hseg | hseg
            · exact hC seg hseg
            · rw [List.mem_singleton] at hseg
              subst hseg
              exact hWC
          · rw [List.chain'_append]
            refine ⟨hD, List.chain'_singleton _, ?_⟩
            intro x hx y hy
            rw [hlast, Option.mem_some_iff] at hx
            rw [List.head?_cons, Option.mem_some_iff] at hy
            subst hx; subst hy
            show lastSeg.startIndex < mIdx
            omega
          · intro seg hseg
            rw [List.getLast?_concat, Option.mem_some_iff] at hseg
            subst hseg
            refine ⟨rfl, ?_⟩
            show mIdx < mIdx + mLen
            omega

/-- Well-formedness of all segments returned by `parseTextWithCitations`:
recorded text equals the input slice, and start offsets strictly
increase. -/
theorem parseTextWithCitations_wf (t : List Char) :
    (∀ seg ∈ (parseTextWithCitations t).1, SegWF t seg) ∧
    ((parseTextWithCitations t).1).Chain' (fun a b => a.startIndex < b.startIndex) := by
  unfold parseTextWithCitations
  refine parseLoop_invariant t (findCitations t) 0 0 [] ?_ (le_refl _) (by omega) ?_ ?_ ?_
  · have := findCitationsAux_wf t 0
    simpa [findCitations] using this
  · intro seg hseg
    simp at hseg
  · simp
  · intro seg hseg
    simp at hseg

/-- The segments tile the interval from offset `a` to the end of the text:
each starts where its predecessor ended, with no gap before the first and
none after the last. -/
def contiguousFrom (t : List Char) (a : Nat) : List TextSegment → Prop
  | [] => a = t.length
  | seg :: rest => seg.startIndex = a ∧ contiguousFrom t seg.endIndex rest

/-- Contiguous well-formed segments concatenate to the corresponding suffix
of the input. -/
theorem contiguousFrom_flatten {t : List Char} {a : Nat} {segs : List TextSegment}
    (hwf : ∀ seg ∈ segs, SegWF t seg) (hcf : contiguousFrom t a segs)
    (ha : a ≤ t.length) :
    (segs.map TextSegment.text).flatten = t.drop a := by
  induction segs generalizing a with
  | nil =>
    have : a = t.length := hcf
    subst this
    simp
  | cons seg rest ih =>
    obtain ⟨hstart, hrest⟩ := hcf
    obtain ⟨htext, hse, hel⟩ := hwf seg (List.mem_cons_self _ _)
    subst hstart
    have hrec := ih (fun s hs => hwf s (List.mem_cons_of_mem _ hs)) hrest hel
    simp only [List.map_cons, List.flatten_cons, hrec, htext]
    unfold sliceL
    have h2 : t.drop seg.endIndex
        = (t.drop seg.startIndex).drop (seg.endIndex - seg.startIndex) := by
      rw [List.drop_drop]
      congr 1
      omega
    rw [h2]
    exact List.take_append_drop _ _

/-! ## `Formatter.extractSearchResults` (src/utils/formatter.ts, lines 51–85) -/

/-- `chunk.web.title || "Untitled"` — an absent or empty title falls back. -/
def titleOrUntitled (w : WebInfo) : String :=
  match w.title with
  | some s => if s = "" then "Untitled" else s
  | none => "Untitled"

/-- Resolve one support to a `SearchResultDetail`: take only the first
referenced chunk index, look the chunk up, and require a `web` field.
Snippet is `support.segment?.text || ""` (an empty span text stays
empty). -/
def resolveSupport (chunks : List GroundingChunk) (s : GroundingSupport) :
    Option SearchResultDetail :=
  match s.groundingChunkIndices with
  | some (i :: _) =>
    match (chunks.get? i).bind GroundingChunk.web with
    | some w => some ⟨titleOrUntitled w, w.uri, (s.segment.bind SegmentInfo.text).getD ""⟩
    | none => none
  | _ => none

/-- The loop of `extractSearchResults`, with the `seen` URL set threaded
through as a list. -/
def extractLoop (chunks : List GroundingChunk) :
    List GroundingSupport → List String → List SearchResultDetail
  | [], _ => []
  | s :: rest, seen =>
    match resolveSupport chunks s with
    | some r =>
      if r.url ∈ seen then extractLoop chunks rest seen
      else r :: extractLoop chunks rest (r.url :: seen)
    | none => extractLoop chunks rest seen

/-- `Formatter.extractSearchResults`: emit the first-seen source per URL,
in support order, capped at `MAX_SEARCH_RESULTS = 5`. -/
def extractSearchResults (md : Option GroundingMetadata) : List SearchResultDetail :=
  match md with
  | none => []
  | some md =>
    match md.groundingSupports with
    | none => []
    | some supports =>
      (extractLoop (md.groundingChunks.getD []) supports []).take 5

/-- All supports of a metadata value resolved in order (before URL
deduplication); the spec's count `M` of distinct referenced source URLs is
the number of distinct URLs in this list. -/
def resolvedSupports (md : GroundingMetadata) : List SearchResultDetail :=
  ((md.groundingSupports).getD []).filterMap
    (resolveSupport ((md.groundingChunks).getD []))

/-- Specification-side deduplication keeping the first occurrence of each
URL, in order. -/
def dedupByUrl : List SearchResultDetail → List SearchResultDetail
  | [] => []
  | r :: rest => r :: dedupByUrl (rest.filter (fun r' => r'.url ≠ r.url))
termination_by l => l.length
decreasing_by
  exact Nat.lt_succ_of_le (List.length_filter_le _ rest)

theorem extractLoop_eq (chunks : List GroundingChunk) (supports : List GroundingSupport) :
    ∀ seen : List String,
      extractLoop chunks supports seen
        = dedupByUrl ((supports.filterMap (resolveSupport chunks)).filter
            (fun r => r.url ∉ seen)) := by
  induction supports with
  | nil =>
    intro seen
    simp only [extractLoop, List.filterMap_nil, List.filter_nil]
    rw [dedupByUrl]
  | cons s rest ih =>
    intro seen
    cases hres : resolveSupport chunks s with
    | none =>
      simp only [extractLoop, List.filterMap_cons, hres]
      exact ih seen
    | some r =>
      simp only [extractLoop, List.filterMap_cons, hres]
      by_cases hmem : r.url ∈ seen
      · rw [if_pos hmem]
        rw [List.filter_cons_of_neg (by simpa using hmem)]
        exact ih seen
      · rw [if_neg hmem]
        rw [List.filter_cons_of_pos (by simpa using hmem)]
        rw [dedupByUrl]
        congr 1
        rw [ih (r.url :: seen), List.filter_filter]
        congr 1
        apply List.filter_congr
        intro x _
        by_cases hx : x.url = r.url
        · simp [hx]
        · simp [hx, hmem]

theorem dedupByUrl_sublist : ∀ l : List SearchResultDetail, (dedupByUrl l).Sublist l
  | [] => by rw [dedupByUrl]
  | r :: rest => by
    rw [dedupByUrl]
    exact (dedupByUrl_sublist _).trans (List.filter_sublist rest) |>.cons₂ r
termination_by l => l.length
decreasing_by
  exact Nat.lt_succ_of_le (List.length_filter_le _ rest)

theorem dedupByUrl_nodup : ∀ l : List SearchResultDetail,
    ((dedupByUrl l).map SearchResultDetail.url).Nodup
  | [] => by rw [dedupByUrl]; simp
  | r :: rest => by
    rw [dedupByUrl]
    simp only [List.map_cons, List.nodup_cons]
    refine ⟨?_, dedupByUrl_nodup _⟩
    intro hmem
    rw [List.mem_map] at hmem
    obtain ⟨x, hx, hxu⟩ := hmem
    have := (dedupByUrl_sublist _).mem hx
    rw [List.mem_filter] at this
    simp [hxu] at this
termination_by l => l.length
decreasing_by
  exact Nat.lt_succ_of_le (List.length_filter_le _ rest)

theorem dedupByUrl_length : ∀ l : List SearchResultDetail,
    (dedupByUrl l).length = (l.map SearchResultDetail.url).toFinset.card
  | [] => by rw [dedupByUrl]; simp
  | r :: rest => by
    rw [dedupByUrl]
    simp only [List.length_cons, List.map_cons, List.toFinset_cons]
    rw [dedupByUrl_length ((rest.filter (fun r' => r'.url ≠ r.url)))]
    have herase : ((rest.filter (fun r' => r'.url ≠ r.url)).map SearchResultDetail.url).toFinset
        = (rest.map SearchResultDetail.url).toFinset.erase r.url := by
      ext x
      simp only [List.mem_toFinset, List.mem_map, Finset.mem_erase, List.mem_filter]
      constructor
      · rintro ⟨y, ⟨hy, hne⟩, rfl⟩
        simp at hne
        exact ⟨hne, y, hy, rfl⟩
      · rintro ⟨hne, y, hy, rfl⟩
        exact ⟨y, ⟨hy, by simpa using hne⟩, rfl⟩
    rw [herase]
    have hins : insert r.url (rest.map SearchResultDetail.url).toFinset
        = insert r.url ((rest.map SearchResultDetail.url).toFinset.erase r.url) := by
      ext x
      by_cases hx : x = r.url <;> simp [hx]
    rw [hins, Finset.card_insert_of_not_mem (Finset.not_mem_erase _ _)]
termination_by l => l.length
decreasing_by
  exact Nat.lt_succ_of_le (List.length_filter_le _ rest)

/-! ## `GeminiClient._extractCitations` (src/gemini/client.ts, lines 331–345) -/

/-- `_extractCitations`: number the chunks that carry a `web` source
positionally (`index + 1` over the filtered array), with
`chunk.web?.title || "Untitled"` and `chunk.web?.uri || ""`. -/
def extractCitations (md : Option GroundingMetadata) : List Citation :=
  match md with
  | none => []
  | some md =>
    match md.groundingChunks with
    | none => []
    | some chunks =>
      (chunks.filter (fun c => c.web.isSome)).enum.map
        (fun p => ⟨p.1 + 1,
          (p.2.web.map titleOrUntitled).getD "Untitled",
          (p.2.web.map WebInfo.uri).getD ""⟩)

/-! ## `Scraper.scrapeUrl` (src/utils/scraper.ts, lines 56–232)

The network fetch, HTTP status check, readability extraction and
markdown conversion (lines 84–113) are external effects; one attempt is
modelled by an oracle `Nat → Except String Extracted` indexed by the
attempt number, failing with the thrown error's message.  The optional
`geminiClient.summarize` callback is likewise an oracle.  Timestamps are
`Nat` milliseconds; `Date.now()` during one call is a single `now`.  The
`Map`-backed cache is an association list where `set` prepends (the
newest binding shadows older ones, as `Map.set` overwrites). -/

/-- `ScrapedContent` as constructed by src/utils/scraper.ts (`content` is
`null` in the error result, `error` absent in the success result). -/
structure ScrapedContent where
  url : String
  title : String
  content : Option String
  error : Option String
  scrapedAt : Nat
  deriving Repr, DecidableEq

/-- The outcome of the external extraction pipeline for one attempt:
`extracted.metadata?.title` and `toMarkdown(extracted.root)`. -/
structure Extracted where
  title : Option String
  markdown : String
  deriving Repr, DecidableEq

inductive ContentMode
  | excerpt
  | summary
  | full
  deriving Repr, DecidableEq

/-- The environment-derived configuration read in the `Scraper`
constructor.  `cacheTTL` is in milliseconds (`CACHE_TTL` seconds × 1000,
default 3600000); `scrapeRetries` defaults to 3. -/
structure ScraperConfig where
  cacheTTL : Nat
  scrapeRetries : Int
  excerptLength : Nat
  summaryLength : Nat
  deriving Repr, DecidableEq

/-- The optional `options` argument of `scrapeUrl`. -/
structure ScrapeOptionsM where
  retries : Option Int
  contentMode : Option ContentMode
  maxContentLength : Option Nat

/-- `extracted.metadata?.title || "Scraped Content"`. -/
def scrapedTitle (e : Extracted) : String :=
  match e.title with
  | some t => if t = "" then "Scraped Content" else t
  | none => "Scraped Content"

/-- The content-mode reduction (lines 116–190).  The floating-point
thresholds `excerptLength * 1.5` and `summaryLength * 1.2` are modelled
exactly as the rationals 3/2 and 6/5 (for the default lengths 1000 and
5000 the double-precision products round to the same integers 1500 and
6000). -/
def processContent (cfg : ScraperConfig)
    (summarize : Option (String → Nat → Except String String))
    (mode : ContentMode) (maxContentLength : Nat) (fullMarkdown : String) : String :=
  match mode with
  | .excerpt =>
    let fallback :=
      fullMarkdown.take cfg.excerptLength
        ++ (if fullMarkdown.length > cfg.excerptLength then "..." else "")
    match summarize with
    | some f =>
      if 2 * fullMarkdown.length > 3 * cfg.excerptLength then
        match f fullMarkdown cfg.excerptLength with
        | .ok s => s
        | .error _ => fallback
      else fallback
    | none => fallback
  | .summary =>
    let fallback :=
      fullMarkdown.take cfg.summaryLength
        ++ (if fullMarkdown.length > cfg.summaryLength then
              "\n\n[Content truncated for summary mode]" else "")
    match summarize with
    | some f =>
      if 5 * fullMarkdown.length > 6 * cfg.summaryLength then
        match f fullMarkdown cfg.summaryLength with
        | .ok s => s
        | .error _ => fallback
      else fallback
    | none => fallback
  | .full =>
    if fullMarkdown.length > maxContentLength then
      fullMarkdown.take maxContentLength
        ++ "\n\n[Content truncated at " ++ toString maxContentLength ++ " characters]"
    else fullMarkdown

/-- The retry loop (`for attempt = 1; attempt <= maxRetries`), as a
recursion on the remaining attempt budget.  Returns the successful
extraction (if any), the number of network attempts made, the backoff
sleeps in milliseconds (`2 ** (attempt - 1) * 1000`, only between
attempts), and the last error message. -/
def attemptLoop (oracle : Nat → Except String Extracted) (attempt : Nat) :
    Nat → Option String → Option Extracted × Nat × List Nat × Option String
  | 0, lastErr => (none, 0, [], lastErr)
  | rem + 1, lastErr =>
    match oracle attempt with
    | .ok ext => (some ext, 1, [], lastErr)
    | .error msg =>
      if rem > 0 then
        match attemptLoop oracle (attempt + 1) rem (some msg) with
        | (res, n, sleeps, le) => (res, n + 1, (2 ^ (attempt - 1) * 1000) :: sleeps, le)
      else (none, 1, [], some msg)

/-- The cache as an association list (newest binding first). -/
abbrev Cache := List (String × ScrapedContent × Nat)

/-- Cache lookup returning the entry only if it is fresh
(`Date.now() - cached.timestamp < cacheTTL`). -/
def cacheFresh (cache : Cache) (url : String) (now ttl : Nat) : Option ScrapedContent :=
  match cache.find? (fun e => e.1 = url) with
  | some e => if now - e.2.2 < ttl then some e.2.1 else none
  | none => none

/-- The observable outcome of one `scrapeUrl` call. -/
structure ScrapeCall where
  result : ScrapedContent
  cache : Cache
  attempts : Nat
  sleeps : List Nat

/-- The fetch phase of `scrapeUrl` once the cache has missed (or the entry
is stale): run the attempt loop; on success build the result, store it in
the cache and return it; once every attempt has failed, return the error
result (`title: "Error"`, `content: null`) without caching it. -/
def scrapeFetch (cfg : ScraperConfig)
    (summarize : Option (String → Nat → Except String String))
    (oracle : Nat → Except String Extracted) (cache : Cache) (now : Nat)
    (url : String) (maxRetries : Int) (contentMode : ContentMode)
    (maxContentLength : Nat) : ScrapeCall :=
  match attemptLoop oracle 1 maxRetries.toNat none with
  | (some ext, n, sleeps, _) =>
    let result : ScrapedContent :=
      ⟨url, scrapedTitle ext,
        some (processContent cfg summarize contentMode maxContentLength ext.markdown),
        none, now⟩
    ⟨result, (url, result, now) :: cache, n, sleeps⟩
  | (none, n, sleeps, lastErr) =>
    ⟨⟨url, "Error", none, some (lastErr.getD "Unknown error"), now⟩, cache, n, sleeps⟩

/-- `Scraper.scrapeUrl`: effective parameters from the options with their
defaults, the fresh-cache short-circuit, then the fetch phase. -/
def scrapeUrl (cfg : ScraperConfig)
    (summarize : Option (String → Nat → Except String String))
    (oracle : Nat → Except String Extracted) (cache : Cache) (now : Nat)
    (url : String) (opts : ScrapeOptionsM) : ScrapeCall :=
  let maxRetries : Int := opts.retries.getD cfg.scrapeRetries
  let contentMode := opts.contentMode.getD .full
  let maxContentLength := opts.maxContentLength.getD 10000
  match cacheFresh cache url now cfg.cacheTTL with
  | some content => ⟨content, cache, 0, []⟩
  | none => scrapeFetch cfg summarize oracle cache now url maxRetries
      contentMode maxContentLength

theorem attemptLoop_all_fail (oracle : Nat → Except String Extracted)
    (msg : Nat → String) (hfail : ∀ n, oracle n = .error (msg n)) :
    ∀ rem attempt lastErr, 1 ≤ rem →
      attemptLoop oracle attempt rem lastErr
        = (none, rem, (List.range' attempt (rem - 1)).map (fun a => 2 ^ (a - 1) * 1000),
           some (msg (attempt + rem - 1))) := by
  intro rem
  induction rem with
  | zero => intro attempt lastErr h; omega
  | succ r ih =>
    intro attempt lastErr _
    simp only [attemptLoop, hfail attempt]
    by_cases hr : r > 0
    · rw [if_pos hr]
      rw [ih (attempt + 1) (some (msg attempt)) (by omega)]
      have h1 : r + 1 - 1 = (r - 1) + 1 := by omega
      have h2 : List.range' attempt ((r - 1) + 1)
          = attempt :: List.range' (attempt + 1) (r - 1) := by
        rw [List.range'_succ]
      have h3 : attempt + 1 + r - 1 = attempt + (r + 1) - 1 := by omega
      simp only [h1, h2, h3, List.map_cons]
    · rw [if_neg hr]
      have hr0 : r = 0 := by omega
      subst hr0
      simp

/-! ## `OAuth2Client.getValidToken` (src/auth/oauth2.ts, lines 19–102)

The persisted credential file is modelled as an `Option OAuth2Token`
parameter; the token endpoint as an `Except`-valued outcome parameter
(consulted only when a refresh is attempted, counted in `refreshCalls`);
`Date.now()` as a single `now`.  Thrown errors become `Except.error` with
the message condensed (the exact wording plays no role in the claims). -/

structure OAuth2Token where
  access_token : String
  refresh_token : String
  token_type : String
  expiry_date : Nat
  deriving Repr, DecidableEq

structure RefreshResponse where
  access_token : String
  expires_in : Nat
  token_type : String
  deriving Repr, DecidableEq

/-- The observable outcome of one `getValidToken` call. -/
structure TokenCall where
  result : Except String String
  saved : Option OAuth2Token
  refreshCalls : Nat
  deriving Repr

/-- The credential record built by `refreshToken` on success: the new
access token and token type, expiry `Date.now() + expires_in * 1000`, and
the refresh token reused unchanged. -/
def refreshedToken (t : OAuth2Token) (resp : RefreshResponse) (now : Nat) : OAuth2Token :=
  ⟨resp.access_token, t.refresh_token, resp.token_type, now + resp.expires_in * 1000⟩

/-- `getValidToken`: missing credential fails; a token whose
`expiry_date` is truthy and in the future is returned as-is with no
network call; otherwise one refresh call is made, the refreshed record
persisted, and its access token returned (or a refresh-failed error). -/
def getValidToken (stored : Option OAuth2Token) (now : Nat)
    (refreshOutcome : Except String RefreshResponse) : TokenCall :=
  match stored with
  | none => ⟨.error "No OAuth token found", none, 0⟩
  | some t =>
    if t.expiry_date ≠ 0 ∧ t.expiry_date > now then
      ⟨.ok t.access_token, none, 0⟩
    else
      match refreshOutcome with
      | .ok resp => ⟨.ok resp.access_token, some (refreshedToken t resp now), 1⟩
      | .error _ => ⟨.error "OAuth token has expired and refresh failed", none, 1⟩

/-! ## `GeminiClient.batchSearch` (src/gemini/client.ts, lines 188–257) and
`Formatter.formatBatchResults` (src/utils/formatter.ts, lines 36–49)

`_searchWithDetails` (a network call) is an oracle
`String → Except String SearchWithDetailsResult`; its thrown error is the
`catch`-branch message.  `scrapeUrls` is an oracle on the URL list (it
never throws — each inner `scrapeUrl` catches its own failures).  The
inter-batch `setTimeout` delay affects no observable result and is not
recorded. -/

structure SearchWithDetailsResult where
  summary : String
  searchResults : List SearchResultDetail
  citations : List Citation
  deriving Repr, DecidableEq

/-- `BatchSearchResult`: the per-query record assembled in `batchSearch`
(optional fields absent on the error path). -/
structure BatchSearchResult where
  query : String
  summary : Option String
  citations : Option (List Citation)
  searchResults : Option (List SearchResultDetail)
  scrapedContent : Option (List ScrapedContent)
  error : Option String
  searchResultCount : Option Nat
  targetResultCount : Option Nat
  deriving Repr, DecidableEq

/-- One entry of `BatchSearchResponse.results` after
`formatBatchResults` (which drops `citations` and defaults the list
fields to `[]`). -/
structure FormattedBatchResult where
  query : String
  summary : Option String
  searchResults : List SearchResultDetail
  scrapedContent : List ScrapedContent
  error : Option String
  searchResultCount : Option Nat
  targetResultCount : Option Nat
  deriving Repr, DecidableEq

structure BatchSearchResponse where
  totalQueries : Nat
  results : List FormattedBatchResult
  deriving Repr, DecidableEq

/-- The per-result mapping inside `formatBatchResults`. -/
def formatOneResult (r : BatchSearchResult) : FormattedBatchResult :=
  ⟨r.query, r.summary, r.searchResults.getD [], r.scrapedContent.getD [],
   r.error, r.searchResultCount, r.targetResultCount⟩

/-- `Formatter.formatBatchResults`. -/
def formatBatchResults (results : List BatchSearchResult) : BatchSearchResponse :=
  ⟨results.length, results.map formatOneResult⟩

/-- The per-query body of `batchSearch`: search with details, scrape the
result URLs when requested, and catch any thrown error into
`{query, error}`. -/
def processQuery (search : String → Except String SearchWithDetailsResult)
    (scrape : List String → List ScrapedContent)
    (scrapeContent : Bool) (query : String) : BatchSearchResult :=
  match search query with
  | .ok sr =>
    let urls := sr.searchResults.map SearchResultDetail.url
    let scraped := if scrapeContent ∧ urls ≠ [] then scrape urls else []
    ⟨query, some sr.summary, some sr.citations, some sr.searchResults, some scraped,
     none, some sr.searchResults.length, some 5⟩
  | .error msg => ⟨query, none, none, none, none, some msg, none, none⟩

/-- The chunked processing loop (`for i = 0; i < queries.length;
i += batchSize` with `Promise.all` over each slice).  With
`batchSize = 0` the source loop would never terminate; the model returns
`[]` there. -/
def batchProcess {α β : Type} (batchSize : Nat) (f : α → β) (l : List α) : List β :=
  if _h1 : l.isEmpty then []
  else if _h2 : batchSize = 0 then []
  else (l.take batchSize).map f ++ batchProcess batchSize f (l.drop batchSize)
termination_by l.length
decreasing_by
  rw [List.length_drop]
  cases l with
  | nil => simp at _h1
  | cons a rest => simp; omega

/-- `GeminiClient.batchSearch`, parameterised by the environment-derived
batch size. -/
def batchSearch (search : String → Except String SearchWithDetailsResult)
    (scrape : List String → List ScrapedContent) (batchSize : Nat)
    (scrapeContent : Bool) (queries : List String) : BatchSearchResponse :=
  formatBatchResults (batchProcess batchSize (processQuery search scrape scrapeContent) queries)

theorem batchProcess_eq_map {α β : Type} (batchSize : Nat) (f : α → β)
    (hbs : 1 ≤ batchSize) : ∀ l : List α, batchProcess batchSize f l = l.map f := by
  have H : ∀ (n : Nat) (l : List α), l.length = n →
      batchProcess batchSize f l = l.map f := by
    intro n
    induction n using Nat.strong_induction_on with
    | _ n ih =>
    intro l hn
    subst hn
    unfold batchProcess
    by_cases hemp : l.isEmpty
    · rw [dif_pos hemp]
      rw [List.isEmpty_iff] at hemp
      subst hemp
      rfl
    · rw [dif_neg hemp, dif_neg (by omega)]
      rw [ih (l.drop batchSize).length ?_ (l.drop batchSize) rfl]
      · rw [← List.map_append, List.take_append_drop]
      · rw [List.isEmpty_iff] at hemp
        have : l.length ≠ 0 := by
          intro h0
          exact hemp (List.length_eq_zero.mp h0)
        rw [List.length_drop]
        omega
  intro l
  exact H l.length l rfl

theorem attemptLoop_first_success (oracle : Nat → Except String Extracted)
    (ext : Extracted) (hok : oracle 1 = .ok ext) {rem : Nat} (hrem : 1 ≤ rem)
    (lastErr : Option String) :
    attemptLoop oracle 1 rem lastErr = (some ext, 1, [], lastErr) := by
  cases rem with
  | zero => omega
  | succ r => simp [attemptLoop, hok]

theorem range'_one_pow_ms (n : Nat) :
    (List.range' 1 n).map (fun a => 2 ^ (a - 1) * 1000)
      = (List.range n).map (fun k => 2 ^ k * 1000) := by
  rw [List.range'_eq_map_range, List.map_map]
  apply List.map_congr_left
  intro x _
  simp

/-- In a list that is pairwise distinct under `f`, two members with the
same `f`-image are the same member. -/
theorem eq_of_pairwise_ne {α β : Type} {f : α → β} {l : List α}
    (hpw : l.Pairwise (fun a b => f a ≠ f b)) :
    ∀ a ∈ l, ∀ b ∈ l, f a = f b → a = b := by
  induction l with
  | nil => intro a ha; simp at ha
  | cons x rest ih =>
    intro a ha b hb hf
    obtain ⟨hx, hrest⟩ := List.pairwise_cons.mp hpw
    rcases List.mem_cons.mp ha with ha | ha <;> rcases List.mem_cons.mp hb with hb | hb
    · rw [ha, hb]
    · exfalso
      apply hx b hb
      rw [← ha]
      exact hf
    · exfalso
      apply hx a ha
      rw [← hb]
      exact hf.symm
    · exact ih hrest a ha b hb hf

/-- The property "the same url never appears under two different citation
numbers" of a citation list. -/
def SameUrlSameNumber (l : List Citation) : Prop :=
  ∀ c₁ ∈ l, ∀ c₂ ∈ l, c₁.url = c₂.url → c₁.number = c₂.number

instance : ∀ l : List Citation, Decidable (SameUrlSameNumber l) := fun l =>
  List.decidableBAll _ l

instance contiguousFromDec (t : List Char) :
    ∀ (a : Nat) (segs : List TextSegment), Decidable (contiguousFrom t a segs)
  | a, [] => inferInstanceAs (Decidable (a = t.length))
  | a, seg :: rest =>
    haveI := contiguousFromDec t seg.endIndex rest
    inferInstanceAs (Decidable (seg.startIndex = a ∧ contiguousFrom t seg.endIndex rest))

/-! ## Claim theorems -/

/-- C1 (counterexample): the claim fails as stated — when the input text
itself already contains a `[<digits>]` substring, stripping all such
substrings from the output of `insertCitations` (here with an empty
supports list, so the output is the unmodified input) does not return the
original text byte-for-byte. -/
theorem C1_counterexample :
    stripMarkers (insertCitations "a[1]b".toList []) ≠ "a[1]b".toList := by
  decide

/-- C1 (amended): if the input text contains no `[<digits>]` substring
(stripping is a no-op on it) and every support's effective end offset
(`endIndex ?? segment?.endIndex`, `0` when absent) is at most the text
length, then stripping all `[<digits>]` substrings from
`insertCitations(text, supports)` yields exactly the original text; and
with an empty supports list the text is returned unmodified. -/
theorem C1_insertCitations_strip_roundtrip (text : List Char)
    (gs : List GroundingSupport)
    (hfree : stripMarkers text = text)
    (hbound : ∀ s ∈ gs, (supportPos s).getD 0 ≤ text.length) :
    stripMarkers (insertCitations text gs) = text ∧
    insertCitations text [] = text := by
  refine ⟨?_, rfl⟩
  unfold insertCitations
  by_cases hemp : gs.isEmpty
  · rw [if_pos hemp]
    exact hfree
  · rw [if_neg hemp]
    rw [insertLoop_eq_fold]
    refine stripMarkers_of_inserted ?_ hfree
    refine inserted_insertFold _ _ ?_ ?_ ?_
    · refine insertEvents_strict_desc ?_ []
      have hs := @List.sorted_mergeSort GroundingSupport
        (fun a b : GroundingSupport => decide (supportKey b ≤ supportKey a))
        (fun a b c h1 h2 => by
          simp only [decide_eq_true_eq] at h1 h2 ⊢
          omega)
        (fun a b => by
          simp only [Bool.or_eq_true, decide_eq_true_eq]
          omega)
        gs
      refine hs.imp ?_
      intro a b h
      simpa using h
    · intro e he
      obtain ⟨s, hsmem, hpos⟩ := insertEvents_mem he
      have hmem : s ∈ gs := (List.mergeSort_perm gs _).mem_iff.mp hsmem
      have := hbound s hmem
      rw [hpos] at this
      simpa using this
    · intro e he
      exact insertEvents_blocks he

/-- C1 (witness): a concrete in-bounds support on marker-free text. -/
theorem C1_witness :
    stripMarkers (insertCitations "ab.".toList [⟨some 3, none, some [0]⟩])
      = "ab.".toList :=
  (C1_insertCitations_strip_roundtrip "ab.".toList [⟨some 3, none, some [0]⟩]
    (by decide) (by decide)).1

/-- C2: `extractSearchResults` equals first-support-order URL
deduplication of the resolved supports capped at 5; hence it has
`min(M, 5)` entries for `M` the number of distinct resolved source URLs,
each URL appears exactly once, and every entry (title with "Untitled"
fallback, url, snippet or "") comes from the first support referencing
its URL, in support order. -/
theorem C2_extractSearchResults_spec (md : GroundingMetadata) :
    extractSearchResults (some md) = (dedupByUrl (resolvedSupports md)).take 5 ∧
    (extractSearchResults (some md)).length
      = min (((resolvedSupports md).map SearchResultDetail.url).toFinset.card) 5 ∧
    ((extractSearchResults (some md)).map SearchResultDetail.url).Nodup ∧
    (extractSearchResults (some md)).Sublist (resolvedSupports md) := by
  have hmain : extractSearchResults (some md) = (dedupByUrl (resolvedSupports md)).take 5 := by
    show (match md.groundingSupports with
      | none => []
      | some supports => (extractLoop (md.groundingChunks.getD []) supports []).take 5) = _
    cases hs : md.groundingSupports with
    | none =>
      simp only [resolvedSupports, hs, Option.getD_none, List.filterMap_nil]
      rw [dedupByUrl]
      rfl
    | some supports =>
      simp only [resolvedSupports, hs, Option.getD_some]
      rw [extractLoop_eq]
      congr 2
      apply List.filter_eq_self.mpr
      intro x _
      simp
  refine ⟨hmain, ?_, ?_, ?_⟩
  · rw [hmain, List.length_take, dedupByUrl_length, Nat.min_comm]
  · rw [hmain, List.map_take]
    exact List.Nodup.sublist (List.take_sublist _ _) (dedupByUrl_nodup _)
  · rw [hmain]
    exact (List.take_sublist _ _).trans (dedupByUrl_sublist _)

/-- C3 (counterexample): the claim fails as stated — for the whitespace
input `" "` (no citation markers at all, so marker exclusion removes
nothing), the parser drops the blank stretch and returns no segments, so
the concatenation of segments does not reconstruct the input. -/
theorem C3_counterexample :
    stripMarkers ((((parseTextWithCitations " ".toList).1).map TextSegment.text).flatten)
      ≠ " ".toList := by
  decide

/-- C3 (amended): whenever the returned segments tile the input
contiguously from offset 0 to its end (no whitespace-only stretch was
dropped and no sentence extension overlapped a later marker), their
concatenation reconstructs the input text exactly (and hence also after
excluding citation markers from both sides); in general dropped blank
stretches and overlapping sentence extensions break the reconstruction. -/
theorem C3_parse_reconstruction (t : List Char)
    (hcf : contiguousFrom t 0 (parseTextWithCitations t).1) :
    (((parseTextWithCitations t).1).map TextSegment.text).flatten = t := by
  have h := contiguousFrom_flatten (parseTextWithCitations_wf t).1 hcf (by omega)
  simpa using h

/-- C3 (witness): a concrete input whose segments are contiguous. -/
theorem C3_witness :
    ((((parseTextWithCitations "a[1]b.".toList).1).map TextSegment.text).flatten)
      = "a[1]b.".toList :=
  C3_parse_reconstruction "a[1]b.".toList (by decide)

/-- C9 (counterexample): segments can overlap — on `"[1]a[2]b."` the first
marker's sentence extension runs past the second marker, so the first
segment's `endIndex` (9) exceeds the second segment's `startIndex` (4). -/
theorem C9_counterexample :
    ((parseTextWithCitations "[1]a[2]b.".toList).1.map
        (fun seg => (seg.startIndex, seg.endIndex))) = [(0, 9), (4, 9)] ∧
    ¬ (9 : Nat) ≤ 4 := by
  exact ⟨by decide, by decide⟩

/-- C9 (amended): every segment's text is exactly the slice of the input
between its offsets, and start offsets strictly increase across the
returned segments; segments may however overlap (a segment's `endIndex`
can exceed the next segment's `startIndex`). -/
theorem C9_parse_slice_increasing (t : List Char) :
    (∀ seg ∈ (parseTextWithCitations t).1,
        seg.text = sliceL t seg.startIndex seg.endIndex) ∧
    ((parseTextWithCitations t).1).Chain' (fun a b => a.startIndex < b.startIndex) := by
  obtain ⟨hwf, hchain⟩ := parseTextWithCitations_wf t
  exact ⟨fun seg hseg => (hwf seg hseg).1, hchain⟩

/-- C4 (counterexample): the claim fails as stated — when two grounding
chunks carry the same URL, `_extractCitations` numbers them positionally
and the same url appears under two different citation numbers. -/
theorem C4_counterexample :
    ¬ SameUrlSameNumber (extractCitations (some
      ⟨some [⟨some ⟨"u", some "t"⟩⟩, ⟨some ⟨"u", some "t"⟩⟩], none⟩)) := by
  decide

/-- C4 (amended): citation numbers are dense starting at 1 across the
chunks that carry a web source; and provided the chunks' URLs are
pairwise distinct, the same url never appears under two different
citation numbers within one answer. -/
theorem C4_extractCitations_dense_unique (md : GroundingMetadata) :
    ((extractCitations (some md)).map Citation.number)
      = List.range' 1 (extractCitations (some md)).length ∧
    ((((md.groundingChunks.getD []).filter (fun c => c.web.isSome)).map
        (fun c => (c.web.map WebInfo.uri).getD "")).Nodup →
      SameUrlSameNumber (extractCitations (some md))) := by
  have hsplit : extractCitations (some md)
      = ((md.groundingChunks.getD []).filter (fun c => c.web.isSome)).enum.map
          (fun p => ⟨p.1 + 1,
            (p.2.web.map titleOrUntitled).getD "Untitled",
            (p.2.web.map WebInfo.uri).getD ""⟩) := by
    show (match md.groundingChunks with
      | none => []
      | some chunks => _) = _
    cases hc : md.groundingChunks with
    | none => simp
    | some chunks => simp
  constructor
  · rw [hsplit]
    set l := (md.groundingChunks.getD []).filter (fun c => c.web.isSome) with hl
    rw [List.map_map, List.length_map]
    have h1 : (Citation.number ∘ fun p : Nat × GroundingChunk =>
        (⟨p.1 + 1, (p.2.web.map titleOrUntitled).getD "Untitled",
          (p.2.web.map WebInfo.uri).getD ""⟩ : Citation))
        = (fun x => x + 1) ∘ Prod.fst := rfl
    rw [h1, ← List.map_map, List.enum_map_fst, List.range'_eq_map_range,
      List.enum_length]
    apply List.map_congr_left
    intro x _
    omega
  · intro hnodup
    have hurls : (extractCitations (some md)).map Citation.url
        = ((md.groundingChunks.getD []).filter (fun c => c.web.isSome)).map
            (fun c => (c.web.map WebInfo.uri).getD "") := by
      rw [hsplit, List.map_map]
      have h1 : (Citation.url ∘ fun p : Nat × GroundingChunk =>
          (⟨p.1 + 1, (p.2.web.map titleOrUntitled).getD "Untitled",
            (p.2.web.map WebInfo.uri).getD ""⟩ : Citation))
          = (fun c => (c.web.map WebInfo.uri).getD "") ∘ Prod.snd := rfl
      rw [h1, ← List.map_map, List.enum_map_snd]
    have hcit_nodup : ((extractCitations (some md)).map Citation.url).Nodup := by
      rw [hurls]
      exact hnodup
    have hpw : (extractCitations (some md)).Pairwise
        (fun a b => a.url ≠ b.url) := by
      rw [List.Nodup, List.pairwise_map] at hcit_nodup
      exact hcit_nodup
    intro c₁ h₁ c₂ h₂ hurl
    rw [eq_of_pairwise_ne hpw c₁ h₁ c₂ h₂ hurl]

/-- C4 (witness): two chunks with distinct URLs get dense numbers 1, 2 and
no url repeats. -/
theorem C4_witness :
    ((extractCitations (some ⟨some [⟨some ⟨"u", some "t"⟩⟩, ⟨some ⟨"v", none⟩⟩], none⟩)).map
        Citation.number)
      = List.range' 1 (extractCitations (some
          ⟨some [⟨some ⟨"u", some "t"⟩⟩, ⟨some ⟨"v", none⟩⟩], none⟩)).length ∧
    SameUrlSameNumber (extractCitations (some
      ⟨some [⟨some ⟨"u", some "t"⟩⟩, ⟨some ⟨"v", none⟩⟩], none⟩)) :=
  ⟨(C4_extractCitations_dense_unique _).1,
   (C4_extractCitations_dense_unique _).2 (by decide)⟩

/-- C5: when no fresh cache entry exists, every fetch attempt fails, and
the effective retry count (`options.retries ?? SCRAPE_RETRIES`) is at
least 1, `scrapeUrl` performs exactly that many network attempts, sleeps
`2^(attempt-1)` seconds (as milliseconds) between consecutive attempts,
returns `{url, title: "Error", content: null, error: last failure's
message, scrapedAt: now}`, and leaves the cache unchanged. -/
theorem C5_scrapeUrl_retry_exhaustion (cfg : ScraperConfig)
    (summarize : Option (String → Nat → Except String String))
    (oracle : Nat → Except String Extracted) (cache : Cache) (now : Nat)
    (url : String) (opts : ScrapeOptionsM) (msg : Nat → String)
    (hfresh : cacheFresh cache url now cfg.cacheTTL = none)
    (hfail : ∀ n, oracle n = .error (msg n))
    (hretries : 1 ≤ opts.retries.getD cfg.scrapeRetries) :
    scrapeUrl cfg summarize oracle cache now url opts
      = ⟨⟨url, "Error", none, some (msg (opts.retries.getD cfg.scrapeRetries).toNat), now⟩,
         cache,
         (opts.retries.getD cfg.scrapeRetries).toNat,
         (List.range ((opts.retries.getD cfg.scrapeRetries).toNat - 1)).map
           (fun k => 2 ^ k * 1000)⟩ := by
  have htn : 1 ≤ (opts.retries.getD cfg.scrapeRetries).toNat := by omega
  have hmsg : 1 + (opts.retries.getD cfg.scrapeRetries).toNat - 1
      = (opts.retries.getD cfg.scrapeRetries).toNat := by omega
  simp only [scrapeUrl, scrapeFetch, hfresh]
  rw [attemptLoop_all_fail oracle msg hfail _ 1 none htn, hmsg, range'_one_pow_ms]
  rfl

/-- C5 (witness): two always-failing attempts with an explicit retry
count of 2 produce exactly 2 attempts, one 1000 ms sleep, and the second
attempt's error message. -/
theorem C5_witness :
    scrapeUrl ⟨3600000, 3, 1000, 5000⟩ none (fun n => .error ("e" ++ toString n))
        [] 7 "https://x" ⟨some 2, none, none⟩
      = ⟨⟨"https://x", "Error", none, some ("e" ++ toString 2), 7⟩, [], 2,
         [2 ^ 0 * 1000]⟩ :=
  C5_scrapeUrl_retry_exhaustion ⟨3600000, 3, 1000, 5000⟩ none
    (fun n => .error ("e" ++ toString n)) [] 7 "https://x" ⟨some 2, none, none⟩
    (fun n => "e" ++ toString n) rfl (fun _ => rfl) (by decide)

/-- C10: with no fresh cache entry and an explicit retries option below 1,
the attempt loop body never runs: no network attempt, no sleep, result
`{url, title: "Error", content: null, error: "Unknown error"}`, cache
unchanged. -/
theorem C10_scrapeUrl_no_attempt (cfg : ScraperConfig)
    (summarize : Option (String → Nat → Except String String))
    (oracle : Nat → Except String Extracted) (cache : Cache) (now : Nat)
    (url : String) (r : Int) (cm : Option ContentMode) (mcl : Option Nat)
    (hfresh : cacheFresh cache url now cfg.cacheTTL = none)
    (hr : r < 1) :
    scrapeUrl cfg summarize oracle cache now url ⟨some r, cm, mcl⟩
      = ⟨⟨url, "Error", none, some "Unknown error", now⟩, cache, 0, []⟩ := by
  have htn : r.toNat = 0 := by omega
  simp only [scrapeUrl, scrapeFetch, hfresh, Option.getD_some, htn]
  rfl

/-- C10 (witness): explicit retries 0 on an empty cache. -/
theorem C10_witness :
    scrapeUrl ⟨3600000, 3, 1000, 5000⟩ none (fun _ => .ok ⟨some "T", "body"⟩)
        [] 7 "https://x" ⟨some 0, none, none⟩
      = ⟨⟨"https://x", "Error", none, some "Unknown error", 7⟩, [], 0, []⟩ :=
  C10_scrapeUrl_no_attempt ⟨3600000, 3, 1000, 5000⟩ none
    (fun _ => .ok ⟨some "T", "body"⟩) [] 7 "https://x" 0 none none rfl (by decide)

/-- C6 (counterexample): the claim fails as stated — when every fetch
attempt fails (retries 2), nothing is cached, so two calls within the TTL
window issue 2 + 2 = 4 network attempts, not exactly one. -/
theorem C6_counterexample :
    (scrapeUrl ⟨3600000, 3, 1000, 5000⟩ none (fun _ => .error "down") [] 0 "u"
        ⟨some 2, none, none⟩).attempts = 2 ∧
    (scrapeUrl ⟨3600000, 3, 1000, 5000⟩ none (fun _ => .error "down")
        (scrapeUrl ⟨3600000, 3, 1000, 5000⟩ none (fun _ => .error "down") [] 0 "u"
          ⟨some 2, none, none⟩).cache 1000 "u" ⟨some 2, none, none⟩).attempts = 2 ∧
    (2 : Nat) + 2 ≠ 1 := by
  exact ⟨by decide, by decide, by decide⟩

/-- C6 (amended): for a first call whose first fetch attempt succeeds
(with at least one retry allowed), a second call within the TTL window
issues no network attempt and returns the cached `ScrapedContent`
verbatim with the cache unchanged, so the two calls issue exactly one
network request; a third call after the TTL has expired issues a second
network request. -/
theorem C6_scrapeUrl_cache (cfg : ScraperConfig)
    (summarize : Option (String → Nat → Except String String))
    (oracle1 oracle3 : Nat → Except String Extracted)
    (url : String) (opts : ScrapeOptionsM) (t1 t2 t3 : Nat) (ext1 ext3 : Extracted)
    (hmr : 1 ≤ opts.retries.getD cfg.scrapeRetries)
    (h1 : oracle1 1 = .ok ext1) (h3 : oracle3 1 = .ok ext3)
    (h2fresh : t2 - t1 < cfg.cacheTTL) (h3stale : ¬ t3 - t1 < cfg.cacheTTL) :
    (scrapeUrl cfg summarize oracle1 [] t1 url opts).attempts = 1 ∧
    scrapeUrl cfg summarize oracle1
        (scrapeUrl cfg summarize oracle1 [] t1 url opts).cache t2 url opts
      = ⟨(scrapeUrl cfg summarize oracle1 [] t1 url opts).result,
         (scrapeUrl cfg summarize oracle1 [] t1 url opts).cache, 0, []⟩ ∧
    (scrapeUrl cfg summarize oracle3
        (scrapeUrl cfg summarize oracle1 [] t1 url opts).cache t3 url opts).attempts
      = 1 := by
  have hmr' : 1 ≤ (opts.retries.getD cfg.scrapeRetries).toNat := by omega
  set res1 : ScrapedContent :=
    ⟨url, scrapedTitle ext1,
      some (processContent cfg summarize (opts.contentMode.getD .full)
        (opts.maxContentLength.getD 10000) ext1.markdown), none, t1⟩ with hres1
  have heq : scrapeUrl cfg summarize oracle1 [] t1 url opts
      = ⟨res1, [(url, res1, t1)], 1, []⟩ := by
    simp only [scrapeUrl, scrapeFetch, cacheFresh, List.find?_nil]
    rw [attemptLoop_first_success oracle1 ext1 h1 hmr' none]
  have hfind : List.find? (fun e => e.1 = url) [(url, res1, t1)] = some (url, res1, t1) :=
    List.find?_cons_of_pos _ (by simp)
  have hfresh2 : cacheFresh [(url, res1, t1)] url t2 cfg.cacheTTL = some res1 := by
    simp only [cacheFresh, hfind]
    rw [if_pos h2fresh]
  have hfresh3 : cacheFresh [(url, res1, t1)] url t3 cfg.cacheTTL = none := by
    simp only [cacheFresh, hfind]
    rw [if_neg h3stale]
  have hcall2 : scrapeUrl cfg summarize oracle1 [(url, res1, t1)] t2 url opts
      = ⟨res1, [(url, res1, t1)], 0, []⟩ := by
    simp only [scrapeUrl, hfresh2]
  have hcall3 : (scrapeUrl cfg summarize oracle3 [(url, res1, t1)] t3 url opts).attempts
      = 1 := by
    simp only [scrapeUrl, scrapeFetch, hfresh3]
    rw [attemptLoop_first_success oracle3 ext3 h3 hmr' none]
  rw [heq]
  exact ⟨rfl, hcall2, hcall3⟩

/-- C6 (witness): concrete calls at times 0, 1000 (within the one-hour
TTL) and 7200000 (after it). -/
theorem C6_witness :
    (scrapeUrl ⟨3600000, 3, 1000, 5000⟩ none (fun _ => .ok ⟨some "T", "A"⟩) [] 0 "u"
        ⟨none, none, none⟩).attempts = 1 ∧
    scrapeUrl ⟨3600000, 3, 1000, 5000⟩ none (fun _ => .ok ⟨some "T", "A"⟩)
        (scrapeUrl ⟨3600000, 3, 1000, 5000⟩ none (fun _ => .ok ⟨some "T", "A"⟩) [] 0 "u"
          ⟨none, none, none⟩).cache 1000 "u" ⟨none, none, none⟩
      = ⟨(scrapeUrl ⟨3600000, 3, 1000, 5000⟩ none (fun _ => .ok ⟨some "T", "A"⟩) [] 0 "u"
            ⟨none, none, none⟩).result,
         (scrapeUrl ⟨3600000, 3, 1000, 5000⟩ none (fun _ => .ok ⟨some "T", "A"⟩) [] 0 "u"
            ⟨none, none, none⟩).cache, 0, []⟩ ∧
    (scrapeUrl ⟨3600000, 3, 1000, 5000⟩ none (fun _ => .ok ⟨some "T", "B"⟩)
        (scrapeUrl ⟨3600000, 3, 1000, 5000⟩ none (fun _ => .ok ⟨some "T", "A"⟩) [] 0 "u"
          ⟨none, none, none⟩).cache 7200000 "u" ⟨none, none, none⟩).attempts = 1 :=
  C6_scrapeUrl_cache ⟨3600000, 3, 1000, 5000⟩ none (fun _ => .ok ⟨some "T", "A"⟩)
    (fun _ => .ok ⟨some "T", "B"⟩) "u" ⟨none, none, none⟩ 0 1000 7200000
    ⟨some "T", "A"⟩ ⟨some "T", "B"⟩ (by decide) rfl rfl (by decide) (by decide)

/-- C7: a stored token whose expiry is in the future is returned
unchanged with no refresh call and nothing persisted; an expired token
triggers exactly one refresh call, and the persisted record carries the
newly issued access token, expiry `now + expires_in × 1000`, and the same
refresh token as before. -/
theorem C7_getValidToken_spec (t : OAuth2Token) (now : Nat)
    (refreshOutcome : Except String RefreshResponse) :
    (t.expiry_date > now →
      getValidToken (some t) now refreshOutcome = ⟨.ok t.access_token, none, 0⟩) ∧
    (∀ resp, t.expiry_date ≤ now → refreshOutcome = .ok resp →
      getValidToken (some t) now refreshOutcome
        = ⟨.ok resp.access_token,
           some ⟨resp.access_token, t.refresh_token, resp.token_type,
                 now + resp.expires_in * 1000⟩, 1⟩) := by
  constructor
  · intro hfuture
    simp only [getValidToken]
    rw [if_pos ⟨by omega, hfuture⟩]
  · intro resp hexp hok
    simp only [getValidToken]
    rw [if_neg (by omega), hok]
    rfl

/-- C7 (witness): a fresh token at `now = 50` is returned as-is; the same
token at `now = 200` is refreshed once, keeping the refresh token. -/
theorem C7_witness :
    getValidToken (some ⟨"a", "r", "Bearer", 100⟩) 50 (.ok ⟨"b", 3600, "Bearer"⟩)
      = ⟨.ok "a", none, 0⟩ ∧
    getValidToken (some ⟨"a", "r", "Bearer", 100⟩) 200 (.ok ⟨"b", 3600, "Bearer"⟩)
      = ⟨.ok "b", some ⟨"b", "r", "Bearer", 200 + 3600 * 1000⟩, 1⟩ :=
  ⟨(C7_getValidToken_spec ⟨"a", "r", "Bearer", 100⟩ 50 (.ok ⟨"b", 3600, "Bearer"⟩)).1
      (by decide),
   (C7_getValidToken_spec ⟨"a", "r", "Bearer", 100⟩ 200 (.ok ⟨"b", 3600, "Bearer"⟩)).2
      ⟨"b", 3600, "Bearer"⟩ (by decide) rfl⟩

/-- C8: for a non-empty query list (and a positive batch size),
`batchSearch` returns `totalQueries` equal to the number of queries and
exactly one result per query, in input order, each determined by its own
query's search outcome — so a query whose search throws yields a result
carrying only the error message, and never affects the other queries'
results. -/
theorem C8_batchSearch_spec (search : String → Except String SearchWithDetailsResult)
    (scrape : List String → List ScrapedContent) (batchSize : Nat) (sc : Bool)
    (queries : List String) (_hq : queries ≠ []) (hbs : 1 ≤ batchSize) :
    (batchSearch search scrape batchSize sc queries).totalQueries = queries.length ∧
    (batchSearch search scrape batchSize sc queries).results
      = queries.map (fun q => formatOneResult (processQuery search scrape sc q)) ∧
    (∀ q msg, search q = .error msg →
      formatOneResult (processQuery search scrape sc q)
        = ⟨q, none, [], [], some msg, none, none⟩) ∧
    (∀ q sr, search q = .ok sr →
      (formatOneResult (processQuery search scrape sc q)).error = none ∧
      (formatOneResult (processQuery search scrape sc q)).summary = some sr.summary) := by
  have hbp := batchProcess_eq_map batchSize (processQuery search scrape sc) hbs queries
  refine ⟨?_, ?_, ?_, ?_⟩
  · show (batchProcess batchSize (processQuery search scrape sc) queries).length = _
    rw [hbp, List.length_map]
  · show (batchProcess batchSize (processQuery search scrape sc) queries).map _ = _
    rw [hbp, List.map_map]
    rfl
  · intro q msg hmsg
    simp only [processQuery, hmsg, formatOneResult]
    rfl
  · intro q sr hok
    refine ⟨?_, ?_⟩ <;> simp [processQuery, hok, formatOneResult]

/-- C8 (witness): a two-query batch where the second query's search
throws; both results are present, in order, the first successful and the
second carrying the error. -/
theorem C8_witness :
    (batchSearch (fun q => if q = "bad" then .error "boom" else .ok ⟨"sum", [], []⟩)
        (fun _ => []) 5 false ["good", "bad"]).totalQueries = (["good", "bad"]).length ∧
    (batchSearch (fun q => if q = "bad" then .error "boom" else .ok ⟨"sum", [], []⟩)
        (fun _ => []) 5 false ["good", "bad"]).results
      = (["good", "bad"]).map (fun q => formatOneResult
          (processQuery (fun q => if q = "bad" then .error "boom" else .ok ⟨"sum", [], []⟩)
            (fun _ => []) false q)) ∧
    formatOneResult (processQuery
        (fun q => if q = "bad" then .error "boom" else .ok ⟨"sum", [], []⟩)
        (fun _ => []) false "bad")
      = ⟨"bad", none, [], [], some "boom", none, none⟩ ∧
    (formatOneResult (processQuery
        (fun q => if q = "bad" then .error "boom" else .ok ⟨"sum", [], []⟩)
        (fun _ => []) false "good")).error = none :=
  by
  have h := C8_batchSearch_spec
    (fun q => if q = "bad" then .error "boom" else .ok ⟨"sum", [], []⟩)
    (fun _ => []) 5 false ["good", "bad"] (by decide) (by decide)
  exact ⟨h.1, h.2.1, h.2.2.1 "bad" "boom" rfl,
    (h.2.2.2 "good" ⟨"sum", [], []⟩ rfl).1⟩

end GGMcp
